import Mathlib

/-!
Verification development for the `brep2graph` topology-to-graph pipeline.

The development shallowly embeds the two core components of the repository:

* `incidence_arrays.py` — the Incidence Builder: `IncidenceArrays` and
  `build_incidence_arrays`, which walks a BRep body's wires and produces the
  four per-coedge arrays `next`, `mate`, `coedge_to_face`, `coedge_to_edge`.
* `configurations.py` — the Graph Assembler: the `simple_edge` kernel and its
  helpers `_f`, `_mf`, `_e`, `_i`, `_m`, `_add_undirect_edge`, `_create_graph`.

Numpy `uint32` arrays are modelled as `List Nat`; numpy integer indexing is
modelled as a bounds-checked lookup (`Option`), since out-of-range indexing
raises `IndexError` in the source.  Python-level failures (raised exceptions,
failed `assert` statements, `AttributeError` on a missing attribute) are
modelled as `none`.  Feature matrices are `List (List α)` for an arbitrary
element type `α`: the assembler never inspects feature values, only shapes.
-/

namespace Brep2Graph

/-- The `IncidenceArrays` NamedTuple of `incidence_arrays.py` (lines 30-36):
fields `next`, `mate`, `coedge_to_face`, `coedge_to_edge`. -/
structure IncidenceArrays where
  next : List Nat
  mate : List Nat
  coedge_to_face : List Nat
  coedge_to_edge : List Nat
deriving DecidableEq, Repr

/-- Python attribute lookup on an `IncidenceArrays` instance: the NamedTuple
declared in `incidence_arrays.py` exposes exactly the attributes `next`,
`mate`, `coedge_to_face` and `coedge_to_edge`; any other attribute name
raises `AttributeError` (modelled as `none`). -/
def IncidenceArrays.pyAttr (a : IncidenceArrays) : String → Option (List Nat)
  | "next" => some a.next
  | "mate" => some a.mate
  | "coedge_to_face" => some a.coedge_to_face
  | "coedge_to_edge" => some a.coedge_to_edge
  | _ => none

/-- The mapping returned by `_create_graph` (`configurations.py` lines 88-94),
modelled as a structure; the feature matrices are returned as given, and the
edge list is split into parallel `senders`/`receivers` arrays. -/
structure Graph (α : Type) where
  face_features : List (List α)
  edge_features : List (List α)
  coedge_features : List (List α)
  senders : List Nat
  receivers : List Nat
deriving DecidableEq, Repr

/-- The keys of the mapping returned by `_create_graph`
(`configurations.py` lines 88-94). -/
def graph_keys : List String :=
  ["face_features", "edge_features", "coedge_features", "senders", "receivers"]

/-- `_create_graph` (`configurations.py` lines 76-94): unzips the edge list
into `senders`/`receivers` (the `assert len(senders) == len(receivers)` holds
by construction) and returns the graph mapping. -/
def _create_graph {α : Type} (face_features edge_features coedge_features : List (List α))
    (edges : List (Nat × Nat)) : Graph α :=
  { face_features := face_features
    edge_features := edge_features
    coedge_features := coedge_features
    senders := edges.map Prod.fst
    receivers := edges.map Prod.snd }

/-- `_add_undirect_edge` (`configurations.py` lines 154-156): appends the
directed edge and its reverse. -/
def _add_undirect_edge (from_ to_ : Nat) (edges : List (Nat × Nat)) : List (Nat × Nat) :=
  edges ++ [(from_, to_), (to_, from_)]

/-- The `face_to_node` array `np.arange(faces_num)` of `simple_edge`
(line 58), as a bounds-checked lookup: entry `i` is `i`. -/
def face_to_node (faces_num i : Nat) : Option Nat :=
  if i < faces_num then some i else none

/-- The `edge_to_node` array `np.arange(edges_num) + faces_num` (line 59):
entry `i` is `faces_num + i`. -/
def edge_to_node (faces_num edges_num i : Nat) : Option Nat :=
  if i < edges_num then some (faces_num + i) else none

/-- The `coedge_to_node` array `np.arange(coedges_num) + faces_num + edges_num`
(line 60): entry `i` is `faces_num + edges_num + i`. -/
def coedge_to_node (faces_num edges_num coedges_num i : Nat) : Option Nat :=
  if i < coedges_num then some (faces_num + edges_num + i) else none

/-- Loop body of `_f` (`configurations.py` lines 97-110):
`for coedge_ix, face_ix in enumerate(coedge_to_face)`, with `ix` the running
`coedge_ix`. -/
def _fAux (cn fn : Nat → Option Nat) :
    Nat → List Nat → List (Nat × Nat) → Option (List (Nat × Nat))
  | _, [], edges => some edges
  | ix, face_ix :: rest, edges =>
    match cn ix, fn face_ix with
    | some coedge, some face => _fAux cn fn (ix + 1) rest (_add_undirect_edge coedge face edges)
    | _, _ => none

/-- `_f` (`configurations.py` lines 97-110): undirected edges between each
coedge and its owning face. -/
def _f (coedge_to_face : List Nat) (cn fn : Nat → Option Nat) (edges : List (Nat × Nat)) :
    Option (List (Nat × Nat)) :=
  _fAux cn fn 0 coedge_to_face edges

/-- Loop body of `_mf` (`configurations.py` lines 113-120): for each index of
`coedge_to_face`, looks up `coedge_to_face[coedge_to_mate[coedge_ix]]`; both
numpy indexings are bounds-checked. -/
def _mfAux (coedge_to_mate coedge_to_face : List Nat) (cn fn : Nat → Option Nat) :
    Nat → List Nat → List (Nat × Nat) → Option (List (Nat × Nat))
  | _, [], edges => some edges
  | ix, _ :: rest, edges =>
    match cn ix, coedge_to_mate.get? ix with
    | some coedge, some m =>
      match coedge_to_face.get? m with
      | some fix =>
        match fn fix with
        | some mate_face =>
          _mfAux coedge_to_mate coedge_to_face cn fn (ix + 1) rest
            (_add_undirect_edge coedge mate_face edges)
        | none => none
      | none => none
    | _, _ => none

/-- `_mf` (`configurations.py` lines 113-120): undirected edges between each
coedge and its mate's owning face. -/
def _mf (coedge_to_mate coedge_to_face : List Nat) (cn fn : Nat → Option Nat)
    (edges : List (Nat × Nat)) : Option (List (Nat × Nat)) :=
  _mfAux coedge_to_mate coedge_to_face cn fn 0 coedge_to_face edges

/-- Loop body of `_e` (`configurations.py` lines 123-130):
`for coedge_ix, edge_ix in enumerate(coedge_to_edge)`. -/
def _eAux (cn en : Nat → Option Nat) :
    Nat → List Nat → List (Nat × Nat) → Option (List (Nat × Nat))
  | _, [], edges => some edges
  | ix, edge_ix :: rest, edges =>
    match cn ix, en edge_ix with
    | some coedge, some edge => _eAux cn en (ix + 1) rest (_add_undirect_edge coedge edge edges)
    | _, _ => none

/-- `_e` (`configurations.py` lines 123-130): undirected edges between each
coedge and its underlying edge. -/
def _e (coedge_to_edge : List Nat) (cn en : Nat → Option Nat) (edges : List (Nat × Nat)) :
    Option (List (Nat × Nat)) :=
  _eAux cn en 0 coedge_to_edge edges

/-- `_i` (`configurations.py` lines 133-140): a directed self-loop for each
coedge index; called on `np.arange(coedges_num)`. -/
def _i (coedges_to_coedges : List Nat) (cn : Nat → Option Nat) (edges : List (Nat × Nat)) :
    Option (List (Nat × Nat)) :=
  match coedges_to_coedges with
  | [] => some edges
  | ix :: rest =>
    match cn ix with
    | some coedge => _i rest cn (edges ++ [(coedge, coedge)])
    | none => none

/-- Loop body of `_m` (`configurations.py` lines 143-151):
`for coedge_ix, mate_coedge_ix in enumerate(coedge_to_mate)`; each coedge
contributes one directed edge to its mate (deliberately not mirrored). -/
def _mAux (cn : Nat → Option Nat) :
    Nat → List Nat → List (Nat × Nat) → Option (List (Nat × Nat))
  | _, [], edges => some edges
  | ix, mate_coedge_ix :: rest, edges =>
    match cn ix, cn mate_coedge_ix with
    | some coedge, some mate_coedge => _mAux cn (ix + 1) rest (edges ++ [(coedge, mate_coedge)])
    | _, _ => none

/-- `_m` (`configurations.py` lines 143-151): one-way directed edges from each
coedge to its mate coedge. -/
def _m (coedge_to_mate : List Nat) (cn : Nat → Option Nat) (edges : List (Nat × Nat)) :
    Option (List (Nat × Nat)) :=
  _mAux cn 0 coedge_to_mate edges

/-- `simple_edge` (`configurations.py` lines 31-73), as a function of the
three feature matrices and the three incidence arrays its body dereferences
(the attributes `coedge_to_mate`, `coedge_to_face`, `coedge_to_edge` of its
`incidence_arrays` argument — the field names used both by the function body
and by the repository's own test `tests/configurations_test.py`).  Emits, in
source order, the `_f`, `_mf`, `_e`, `_i`, `_m` edge groups and assembles the
graph with `_create_graph`. -/
def simple_edge {α : Type} (face_features edge_features coedge_features : List (List α))
    (coedge_to_mate coedge_to_face coedge_to_edge : List Nat) : Option (Graph α) :=
  let faces_num := face_features.length
  let edges_num := edge_features.length
  let coedges_num := coedge_features.length
  let cn := coedge_to_node faces_num edges_num coedges_num
  let fn := face_to_node faces_num
  let en := edge_to_node faces_num edges_num
  match _f coedge_to_face cn fn [] with
  | none => none
  | some e1 =>
    match _mf coedge_to_mate coedge_to_face cn fn e1 with
    | none => none
    | some e2 =>
      match _e coedge_to_edge cn en e2 with
      | none => none
      | some e3 =>
        match _i (List.range coedges_num) cn e3 with
        | none => none
        | some e4 =>
          match _m coedge_to_mate cn e4 with
          | none => none
          | some e5 =>
            some (_create_graph face_features edge_features coedge_features e5)

/-- `simple_edge` as actually invoked on an `IncidenceArrays` value from
`incidence_arrays.py`: the source dereferences
`incidence_arrays.coedge_to_face` (line 64), `incidence_arrays.coedge_to_mate`
(lines 65 and 71) and `incidence_arrays.coedge_to_edge` (line 68) through
Python attribute lookup on the NamedTuple. -/
def simple_edge_full {α : Type} (face_features edge_features coedge_features : List (List α))
    (incidence_arrays : IncidenceArrays) : Option (Graph α) :=
  match incidence_arrays.pyAttr "coedge_to_face" with
  | none => none
  | some c2f =>
    match incidence_arrays.pyAttr "coedge_to_mate" with
    | none => none
    | some c2m =>
      match incidence_arrays.pyAttr "coedge_to_edge" with
      | none => none
      | some c2e =>
        simple_edge face_features edge_features coedge_features c2m c2f c2e

/-- `features_from_body` (`features.py` lines 40-64) given the three per-kind
feature matrices produced by the external per-entity feature extractors: the
`np.block` call stacks face rows, then edge rows, then coedge rows, padding
each row with zero blocks so the combined table is block-diagonal by entity
kind.  Block widths are the per-kind column counts (`shape[1]`). -/
def features_from_body {α : Type} [Zero α]
    (face_features edge_features coedge_features : List (List α)) : List (List α) :=
  let wF := (face_features.headD []).length
  let wE := (edge_features.headD []).length
  let wC := (coedge_features.headD []).length
  face_features.map (fun r => r ++ List.replicate (wE + wC) 0) ++
  edge_features.map (fun r => List.replicate wF 0 ++ r ++ List.replicate wC 0) ++
  coedge_features.map (fun r => List.replicate (wF + wE) 0 ++ r)

/-- Abstraction of the BRep body (`occwl.compound.Compound`) together with the
external entity-indexing service (`occwl.entity_mapper.EntityMapper`), holding
exactly the operations `build_incidence_arrays` uses.  Topological entities
(coedges, faces) are represented by opaque `Nat` tokens; the mapper functions
translate tokens to dense integer ids.

* `wires` — `body.wires()`, each wire as its `wire.ordered_edges()` sequence;
* `faces` — `body.faces()`;
* `wires_from_face` — `body.wires_from_face(face)`;
* `reversed_edge` — `coedge.reversed_edge()`;
* `oriented_edge_exists`, `oriented_edge_index`, `edge_index`, `face_index` —
  the corresponding `EntityMapper` lookups;
* `coedge_count` — `len(entity_mapper.oriented_edge_map)`. -/
structure BRepEnv where
  wires : List (List Nat)
  faces : List Nat
  wires_from_face : Nat → List (List Nat)
  reversed_edge : Nat → Nat
  oriented_edge_exists : Nat → Bool
  oriented_edge_index : Nat → Nat
  edge_index : Nat → Nat
  face_index : Nat → Nat
  coedge_count : Nat

/-- All coedge tokens of the body, in the order `build_incidence_arrays`
visits them (`for wire in body.wires(): for coedge in wire.ordered_edges()`). -/
def allCoedges (env : BRepEnv) : List Nat :=
  env.wires.flatten

/-- The `mating_coedge_index` computed at `incidence_arrays.py` lines 70-77:
the id of the coedge's geometric reverse when it exists as a distinct coedge,
the coedge's own id otherwise (self-mate). -/
def mateOf (env : BRepEnv) (t : Nat) : Nat :=
  if env.oriented_edge_exists (env.reversed_edge t) then
    env.oriented_edge_index (env.reversed_edge t)
  else
    env.oriented_edge_index t

/-- Bounds-checked numpy element assignment `a[i] = v`: out-of-range indices
raise `IndexError` (modelled as `none`). -/
def setA (a : List Nat) (i v : Nat) : Option (List Nat) :=
  if i < a.length then some (a.set i v) else none

/-- The mutable state of `build_incidence_arrays`: the four arrays under
construction. -/
structure BState where
  next_ : List Nat
  mate : List Nat
  coedge_to_edge : List Nat
  coedge_to_face : List Nat
deriving DecidableEq, Repr

/-- The per-coedge body of the first loop of `build_incidence_arrays`
(`incidence_arrays.py` lines 64-83), excluding the `next` linking: records the
mate (self-mating when the reverse does not exist), checks the
`assert edge_index == entity_mapper.edge_index(mating_coedge)` consistency
assertion, and records the underlying edge for both the coedge and its mate. -/
def stepCoedge (env : BRepEnv) (st : BState) (t : Nat) : Option BState :=
  let coedge_index := env.oriented_edge_index t
  let edge_index := env.edge_index t
  let mating_coedge_index := mateOf env t
  match setA st.mate coedge_index mating_coedge_index with
  | none => none
  | some m =>
    if env.edge_index t = env.edge_index (env.reversed_edge t) then
      match setA st.coedge_to_edge coedge_index edge_index with
      | none => none
      | some e1 =>
        match setA e1 mating_coedge_index edge_index with
        | none => none
        | some e2 => some { st with mate := m, coedge_to_edge := e2 }
    else
      none

/-- The tail of the wire traversal (`incidence_arrays.py` lines 64-92) after
the first coedge: processes each coedge, links `next_[previous] = current`,
and closes the loop with `next_[previous] = first` when the wire is
exhausted. -/
def wireLoop (env : BRepEnv) (st : BState) (first prev : Nat) :
    List Nat → Option BState
  | [] =>
    match setA st.next_ prev first with
    | none => none
    | some n => some { st with next_ := n }
  | t :: ts =>
    match stepCoedge env st t with
    | none => none
    | some st1 =>
      match setA st1.next_ prev (env.oriented_edge_index t) with
      | none => none
      | some n =>
        wireLoop env { st1 with next_ := n } first (env.oriented_edge_index t) ts


/-- One full wire iteration of the first loop of `build_incidence_arrays`
(`incidence_arrays.py` lines 60-92).  A wire with no ordered edges leaves
`previous_coedge_index` as `None`, so the closing assignment
`next_[previous_coedge_index] = first_coedge_index` raises in Python; this is
modelled as `none`. -/
def processWire (env : BRepEnv) (st : BState) : List Nat → Option BState
  | [] => none
  | t :: ts =>
    match stepCoedge env st t with
    | none => none
    | some st1 =>
      wireLoop env st1 (env.oriented_edge_index t) (env.oriented_edge_index t) ts

/-- Folding `processWire` over `body.wires()`. -/
def wiresPhase (env : BRepEnv) : BState → List (List Nat) → Option BState
  | st, [] => some st
  | st, w :: ws =>
    match processWire env st w with
    | none => none
    | some st1 => wiresPhase env st1 ws

/-- The innermost body of the second loop of `build_incidence_arrays`
(`incidence_arrays.py` lines 97-99): `coedge_to_face[coedge_index] = face_index`. -/
def facePassCoedge (env : BRepEnv) (face_index : Nat) (st : BState) : List Nat → Option BState
  | [] => some st
  | t :: ts =>
    match setA st.coedge_to_face (env.oriented_edge_index t) face_index with
    | none => none
    | some a => facePassCoedge env face_index { st with coedge_to_face := a } ts

/-- The wires-of-one-face loop of `incidence_arrays.py` lines 96-99. -/
def facePassWires (env : BRepEnv) (face_index : Nat) (st : BState) :
    List (List Nat) → Option BState
  | [] => some st
  | w :: ws =>
    match facePassCoedge env face_index st w with
    | none => none
    | some st1 => facePassWires env face_index st1 ws

/-- The faces loop of `incidence_arrays.py` lines 94-99. -/
def facesPhase (env : BRepEnv) (st : BState) : List Nat → Option BState
  | [] => some st
  | f :: fs =>
    match facePassWires env (env.face_index f) st (env.wires_from_face f) with
    | none => none
    | some st1 => facesPhase env st1 fs

/-- `build_incidence_arrays` (`incidence_arrays.py` lines 39-109): initializes
the four arrays of length `coedges_num` to the sentinel `coedges_num`, runs
the wire traversal and the face pass, then validates that every entry of
every array is strictly below `coedges_num` (the four `assert np.all(... <
coedges_num)` statements at lines 101-104); a failed assertion is a
construction error (`none`). -/
def build_incidence_arrays (env : BRepEnv) : Option IncidenceArrays :=
  let coedges_num := env.coedge_count
  let init := List.replicate coedges_num coedges_num
  let st0 : BState := ⟨init, init, init, init⟩
  match wiresPhase env st0 env.wires with
  | none => none
  | some st1 =>
    match facesPhase env st1 env.faces with
    | none => none
    | some st2 =>
      if st2.next_.all (fun x => x < coedges_num) &&
         st2.mate.all (fun x => x < coedges_num) &&
         st2.coedge_to_face.all (fun x => x < coedges_num) &&
         st2.coedge_to_edge.all (fun x => x < coedges_num) then
        some ⟨st2.next_, st2.mate, st2.coedge_to_face, st2.coedge_to_edge⟩
      else
        none

/-!
### Write traces

`build_incidence_arrays` only ever modifies its four arrays through
bounds-checked single-element assignments.  Each phase of the construction is
therefore characterized by the ordered list of `(index, value)` writes it
performs; `applyW` replays such a list.
-/

/-- Replay a list of `(index, value)` assignments over an array, failing on
the first out-of-range index. -/
def applyW : List Nat → List (Nat × Nat) → Option (List Nat)
  | a, [] => some a
  | a, p :: ws =>
    match setA a p.1 p.2 with
    | none => none
    | some b => applyW b ws

theorem setA_some {a : List Nat} {i v : Nat} {b : List Nat} (h : setA a i v = some b) :
    i < a.length ∧ b = a.set i v := by
  unfold setA at h
  split at h
  · exact ⟨by assumption, (Option.some.inj h).symm⟩
  · cases h

theorem setA_of_lt {a : List Nat} {i : Nat} (h : i < a.length) (v : Nat) :
    setA a i v = some (a.set i v) := by
  unfold setA
  simp [h]

theorem applyW_length : ∀ {ws : List (Nat × Nat)} {a b : List Nat},
    applyW a ws = some b → b.length = a.length := by
  intro ws
  induction ws with
  | nil => intro a b h; cases h; rfl
  | cons p ws ih =>
    intro a b h
    unfold applyW at h
    cases hs : setA a p.1 p.2 with
    | none => rw [hs] at h; cases h
    | some c =>
      rw [hs] at h
      obtain ⟨-, hc⟩ := setA_some hs
      rw [ih h, hc, List.length_set]

theorem applyW_inBounds : ∀ {ws : List (Nat × Nat)} {a b : List Nat},
    applyW a ws = some b → ∀ p ∈ ws, p.1 < a.length := by
  intro ws
  induction ws with
  | nil => intro a b _ p hp; cases hp
  | cons q ws ih =>
    intro a b h p hp
    unfold applyW at h
    cases hs : setA a q.1 q.2 with
    | none => rw [hs] at h; cases h
    | some c =>
      rw [hs] at h
      obtain ⟨hq, hc⟩ := setA_some hs
      rcases List.mem_cons.mp hp with rfl | hmem
      · exact hq
      · have := ih h p hmem
        rwa [hc, List.length_set] at this

theorem applyW_getD_of_forall_ne : ∀ {ws : List (Nat × Nat)} {a b : List Nat} {j : Nat},
    applyW a ws = some b → (∀ p ∈ ws, p.1 ≠ j) → b.getD j 0 = a.getD j 0 := by
  intro ws
  induction ws with
  | nil => intro a b j h _; cases h; rfl
  | cons q ws ih =>
    intro a b j h hne
    unfold applyW at h
    cases hs : setA a q.1 q.2 with
    | none => rw [hs] at h; cases h
    | some c =>
      rw [hs] at h
      obtain ⟨-, hc⟩ := setA_some hs
      have hq : q.1 ≠ j := hne q (List.mem_cons_self q ws)
      have : c.getD j 0 = a.getD j 0 := by
        rw [hc, List.getD_eq_getElem?_getD, List.getD_eq_getElem?_getD,
          List.getElem?_set_ne hq]
      rw [ih h (fun p hp => hne p (List.mem_cons_of_mem q hp)), this]

theorem applyW_getD_last : ∀ {ws : List (Nat × Nat)} {a b : List Nat} {j v : Nat},
    applyW a ws = some b → (∃ p ∈ ws, p.1 = j) → (∀ p ∈ ws, p.1 = j → p.2 = v) →
    b.getD j 0 = v := by
  intro ws
  induction ws with
  | nil => intro a b j v _ hex _; obtain ⟨p, hp, -⟩ := hex; cases hp
  | cons q ws ih =>
    intro a b j v h hex hval
    unfold applyW at h
    cases hs : setA a q.1 q.2 with
    | none => rw [hs] at h; cases h
    | some c =>
      rw [hs] at h
      obtain ⟨hlt, hc⟩ := setA_some hs
      by_cases hmem : ∃ p ∈ ws, p.1 = j
      · exact ih h hmem (fun p hp => hval p (List.mem_cons_of_mem q hp))
      · push_neg at hmem
        have hqj : q.1 = j := by
          obtain ⟨p, hp, hpj⟩ := hex
          rcases List.mem_cons.mp hp with rfl | hpm
          · exact hpj
          · exact absurd hpj (hmem p hpm)
        have hcj : c.getD j 0 = v := by
          rw [hc, ← hqj, List.getD_eq_getElem?_getD, List.getElem?_set_self hlt]
          exact hval q (List.mem_cons_self q ws) hqj
        rw [applyW_getD_of_forall_ne h hmem, hcj]

theorem applyW_getD_mem_or : ∀ {ws : List (Nat × Nat)} {a b : List Nat},
    applyW a ws = some b → ∀ j : Nat, b.getD j 0 = a.getD j 0 ∨ (j, b.getD j 0) ∈ ws := by
  intro ws
  induction ws with
  | nil => intro a b h j; cases h; exact Or.inl rfl
  | cons q ws ih =>
    intro a b h j
    unfold applyW at h
    cases hs : setA a q.1 q.2 with
    | none => rw [hs] at h; cases h
    | some c =>
      rw [hs] at h
      obtain ⟨hlt, hc⟩ := setA_some hs
      rcases ih h j with hkeep | hmem
      · by_cases hj : q.1 = j
        · refine Or.inr (List.mem_cons.mpr (Or.inl ?_))
          have : c.getD j 0 = q.2 := by
            rw [hc, ← hj, List.getD_eq_getElem?_getD, List.getElem?_set_self hlt]
            rfl
          rw [hkeep, this]
          exact Prod.ext hj.symm rfl
        · refine Or.inl ?_
          rw [hkeep, hc, List.getD_eq_getElem?_getD, List.getD_eq_getElem?_getD,
            List.getElem?_set_ne hj]
      · exact Or.inr (List.mem_cons_of_mem q hmem)

theorem applyW_cons {a : List Nat} {p : Nat × Nat} {ws : List (Nat × Nat)} :
    applyW a (p :: ws) =
      match setA a p.1 p.2 with
      | none => none
      | some b => applyW b ws := rfl

theorem applyW_append {ws1 ws2 : List (Nat × Nat)} : ∀ {a b : List Nat},
    applyW a ws1 = some b → applyW a (ws1 ++ ws2) = applyW b ws2 := by
  induction ws1 with
  | nil => intro a b h; cases h; rfl
  | cons q ws ih =>
    intro a b h
    unfold applyW at h
    cases hs : setA a q.1 q.2 with
    | none => rw [hs] at h; cases h
    | some c =>
      rw [hs] at h
      rw [List.cons_append, applyW_cons, hs]
      exact ih h

/-- The writes `mate[coedge_index] = mating_coedge_index` performed while
processing the given coedge tokens in order. -/
def mateWrites (env : BRepEnv) (ts : List Nat) : List (Nat × Nat) :=
  ts.map (fun t => (env.oriented_edge_index t, mateOf env t))

/-- The writes `coedge_to_edge[coedge_index] = edge_index` and
`coedge_to_edge[mating_coedge_index] = edge_index` performed while processing
the given coedge tokens in order. -/
def c2eWrites (env : BRepEnv) (ts : List Nat) : List (Nat × Nat) :=
  ts.flatMap (fun t =>
    [(env.oriented_edge_index t, env.edge_index t), (mateOf env t, env.edge_index t)])

/-- The `next_` writes performed while traversing one wire: each coedge id is
linked to its cyclic successor in the wire's order (the closing write
`next_[previous] = first` included). -/
def nextWritesWire (env : BRepEnv) (w : List Nat) : List (Nat × Nat) :=
  (w.map env.oriented_edge_index).zip ((w.map env.oriented_edge_index).rotate 1)

/-- All `next_` writes of the wire phase. -/
def nextWrites (env : BRepEnv) : List (Nat × Nat) :=
  env.wires.flatMap (nextWritesWire env)

/-- All `coedge_to_face[coedge_index] = face_index` writes of the face pass. -/
def c2fWrites (env : BRepEnv) : List (Nat × Nat) :=
  env.faces.flatMap (fun f =>
    ((env.wires_from_face f).flatten).map
      (fun t => (env.oriented_edge_index t, env.face_index f)))

theorem stepCoedge_trace {env : BRepEnv} {st st' : BState} {t : Nat}
    (h : stepCoedge env st t = some st') :
    st'.next_ = st.next_ ∧ st'.coedge_to_face = st.coedge_to_face ∧
    applyW st.mate (mateWrites env [t]) = some st'.mate ∧
    applyW st.coedge_to_edge (c2eWrites env [t]) = some st'.coedge_to_edge ∧
    env.edge_index t = env.edge_index (env.reversed_edge t) := by
  unfold stepCoedge at h
  try dsimp only at h
  cases hm : setA st.mate (env.oriented_edge_index t) (mateOf env t) with
  | none => rw [hm] at h; cases h
  | some m =>
    rw [hm] at h
    try dsimp only at h
    split at h
    · cases h1 : setA st.coedge_to_edge (env.oriented_edge_index t) (env.edge_index t) with
      | none => rw [h1] at h; cases h
      | some e1 =>
        rw [h1] at h
        try dsimp only at h
        cases h2 : setA e1 (mateOf env t) (env.edge_index t) with
        | none => rw [h2] at h; cases h
        | some e2 =>
          rw [h2] at h
          try dsimp only at h
          cases h
          refine ⟨rfl, rfl, ?_, ?_, by assumption⟩
          · simp only [mateWrites, List.map_cons, List.map_nil, applyW_cons, hm]
            rfl
          · simp only [c2eWrites, List.flatMap_cons, List.flatMap_nil, List.append_nil,
              applyW_cons, h1, h2]
            rfl
    · cases h

theorem wireLoop_trace {env : BRepEnv} : ∀ {rest : List Nat} {st st' : BState}
    {first prev : Nat}, wireLoop env st first prev rest = some st' →
    st'.coedge_to_face = st.coedge_to_face ∧
    applyW st.mate (mateWrites env rest) = some st'.mate ∧
    applyW st.coedge_to_edge (c2eWrites env rest) = some st'.coedge_to_edge ∧
    applyW st.next_
      ((prev :: rest.map env.oriented_edge_index).zip
        (rest.map env.oriented_edge_index ++ [first])) = some st'.next_ ∧
    (∀ t ∈ rest, env.edge_index t = env.edge_index (env.reversed_edge t)) := by
  intro rest
  induction rest with
  | nil =>
    intro st st' first prev h
    unfold wireLoop at h
    try dsimp only at h
    cases hn : setA st.next_ prev first with
    | none => rw [hn] at h; cases h
    | some n =>
      rw [hn] at h
      cases h
      refine ⟨rfl, rfl, rfl, ?_, by intro t ht; cases ht⟩
      simp only [List.map_nil, List.nil_append, List.zip_cons_cons, List.zip_nil_left,
        applyW_cons, hn]
      rfl
  | cons t ts ih =>
    intro st st' first prev h
    unfold wireLoop at h
    try dsimp only at h
    cases hs : stepCoedge env st t with
    | none => rw [hs] at h; cases h
    | some st1 =>
      rw [hs] at h
      try dsimp only at h
      cases hn : setA st1.next_ prev (env.oriented_edge_index t) with
      | none => rw [hn] at h; cases h
      | some n =>
        rw [hn] at h
        try dsimp only at h
        obtain ⟨hnx, hcf, hmate, hc2e, hassert⟩ := stepCoedge_trace hs
        obtain ⟨ihcf, ihmate, ihc2e, ihnext, ihassert⟩ := ih h
        refine ⟨by rw [ihcf]; exact hcf, ?_, ?_, ?_, ?_⟩
        · have : mateWrites env (t :: ts) = mateWrites env [t] ++ mateWrites env ts := by
            simp [mateWrites]
          rw [this, applyW_append hmate]
          exact ihmate
        · have : c2eWrites env (t :: ts) = c2eWrites env [t] ++ c2eWrites env ts := by
            simp [c2eWrites]
          rw [this, applyW_append hc2e]
          exact ihc2e
        · simp only [List.map_cons, List.zip_cons_cons, List.cons_append, applyW_cons]
          rw [← hnx, hn]
          exact ihnext
        · intro u hu
          rcases List.mem_cons.mp hu with rfl | hmem
          · exact hassert
          · exact ihassert u hmem

theorem processWire_trace {env : BRepEnv} {st st' : BState} {w : List Nat}
    (h : processWire env st w = some st') :
    w ≠ [] ∧ st'.coedge_to_face = st.coedge_to_face ∧
    applyW st.mate (mateWrites env w) = some st'.mate ∧
    applyW st.coedge_to_edge (c2eWrites env w) = some st'.coedge_to_edge ∧
    applyW st.next_ (nextWritesWire env w) = some st'.next_ ∧
    (∀ t ∈ w, env.edge_index t = env.edge_index (env.reversed_edge t)) := by
  cases w with
  | nil => cases h
  | cons t ts =>
    unfold processWire at h
    try dsimp only at h
    cases hs : stepCoedge env st t with
    | none => rw [hs] at h; cases h
    | some st1 =>
      rw [hs] at h
      obtain ⟨hnx, hcf, hmate, hc2e, hassert⟩ := stepCoedge_trace hs
      obtain ⟨ihcf, ihmate, ihc2e, ihnext, ihassert⟩ := wireLoop_trace h
      refine ⟨by simp, by rw [ihcf]; exact hcf, ?_, ?_, ?_, ?_⟩
      · have : mateWrites env (t :: ts) = mateWrites env [t] ++ mateWrites env ts := by
          simp [mateWrites]
        rw [this, applyW_append hmate]
        exact ihmate
      · have : c2eWrites env (t :: ts) = c2eWrites env [t] ++ c2eWrites env ts := by
          simp [c2eWrites]
        rw [this, applyW_append hc2e]
        exact ihc2e
      · have hrot : nextWritesWire env (t :: ts) =
            (env.oriented_edge_index t :: ts.map env.oriented_edge_index).zip
              (ts.map env.oriented_edge_index ++ [env.oriented_edge_index t]) := by
          simp only [nextWritesWire, List.map_cons]
          rw [List.rotate_cons_succ, List.rotate_zero]
        rw [hrot, ← hnx]
        exact ihnext
      · intro u hu
        rcases List.mem_cons.mp hu with rfl | hmem
        · exact hassert
        · exact ihassert u hmem

theorem wiresPhase_trace {env : BRepEnv} : ∀ {ws : List (List Nat)} {st st' : BState},
    wiresPhase env st ws = some st' →
    st'.coedge_to_face = st.coedge_to_face ∧
    applyW st.mate (mateWrites env ws.flatten) = some st'.mate ∧
    applyW st.coedge_to_edge (c2eWrites env ws.flatten) = some st'.coedge_to_edge ∧
    applyW st.next_ (ws.flatMap (nextWritesWire env)) = some st'.next_ ∧
    (∀ w ∈ ws, w ≠ []) ∧
    (∀ t ∈ ws.flatten, env.edge_index t = env.edge_index (env.reversed_edge t)) := by
  intro ws
  induction ws with
  | nil =>
    intro st st' h
    cases h
    refine ⟨rfl, rfl, rfl, rfl, ?_, ?_⟩
    · intro w hw
      cases hw
    · intro t ht
      cases ht
  | cons w ws ih =>
    intro st st' h
    unfold wiresPhase at h
    try dsimp only at h
    cases hp : processWire env st w with
    | none => rw [hp] at h; cases h
    | some st1 =>
      rw [hp] at h
      obtain ⟨hne, hcf, hmate, hc2e, hnext, hassert⟩ := processWire_trace hp
      obtain ⟨ihcf, ihmate, ihc2e, ihnext, ihne, ihassert⟩ := ih h
      refine ⟨by rw [ihcf]; exact hcf, ?_, ?_, ?_, ?_, ?_⟩
      · have : mateWrites env ((w :: ws).flatten) =
            mateWrites env w ++ mateWrites env ws.flatten := by
          simp [mateWrites]
        rw [this, applyW_append hmate]
        exact ihmate
      · have : c2eWrites env ((w :: ws).flatten) =
            c2eWrites env w ++ c2eWrites env ws.flatten := by
          simp [c2eWrites]
        rw [this, applyW_append hc2e]
        exact ihc2e
      · rw [List.flatMap_cons, applyW_append hnext]
        exact ihnext
      · intro w' hw'
        rcases List.mem_cons.mp hw' with rfl | hmem
        · exact hne
        · exact ihne w' hmem
      · intro t ht
        rw [List.flatten_cons] at ht
        rcases List.mem_append.mp ht with hmem | hmem
        · exact hassert t hmem
        · exact ihassert t hmem

theorem facePassCoedge_trace {env : BRepEnv} {fi : Nat} : ∀ {ts : List Nat}
    {st st' : BState}, facePassCoedge env fi st ts = some st' →
    st'.next_ = st.next_ ∧ st'.mate = st.mate ∧ st'.coedge_to_edge = st.coedge_to_edge ∧
    applyW st.coedge_to_face (ts.map (fun t => (env.oriented_edge_index t, fi))) =
      some st'.coedge_to_face := by
  intro ts
  induction ts with
  | nil => intro st st' h; cases h; exact ⟨rfl, rfl, rfl, rfl⟩
  | cons t ts ih =>
    intro st st' h
    unfold facePassCoedge at h
    try dsimp only at h
    cases hs : setA st.coedge_to_face (env.oriented_edge_index t) fi with
    | none => rw [hs] at h; cases h
    | some a =>
      rw [hs] at h
      obtain ⟨ihnx, ihmate, ihc2e, ihc2f⟩ := ih h
      refine ⟨ihnx, ihmate, ihc2e, ?_⟩
      simp only [List.map_cons, applyW_cons, hs]
      exact ihc2f

theorem facePassWires_trace {env : BRepEnv} {fi : Nat} : ∀ {ws : List (List Nat)}
    {st st' : BState}, facePassWires env fi st ws = some st' →
    st'.next_ = st.next_ ∧ st'.mate = st.mate ∧ st'.coedge_to_edge = st.coedge_to_edge ∧
    applyW st.coedge_to_face (ws.flatten.map (fun t => (env.oriented_edge_index t, fi))) =
      some st'.coedge_to_face := by
  intro ws
  induction ws with
  | nil => intro st st' h; cases h; exact ⟨rfl, rfl, rfl, rfl⟩
  | cons w ws ih =>
    intro st st' h
    unfold facePassWires at h
    try dsimp only at h
    cases hs : facePassCoedge env fi st w with
    | none => rw [hs] at h; cases h
    | some st1 =>
      rw [hs] at h
      obtain ⟨hnx, hmate, hc2e, hc2f⟩ := facePassCoedge_trace hs
      obtain ⟨ihnx, ihmate, ihc2e, ihc2f⟩ := ih h
      refine ⟨by rw [ihnx, hnx], by rw [ihmate, hmate], by rw [ihc2e, hc2e], ?_⟩
      rw [List.flatten_cons, List.map_append, applyW_append hc2f]
      exact ihc2f

theorem facesPhase_trace {env : BRepEnv} : ∀ {fs : List Nat} {st st' : BState},
    facesPhase env st fs = some st' →
    st'.next_ = st.next_ ∧ st'.mate = st.mate ∧ st'.coedge_to_edge = st.coedge_to_edge ∧
    applyW st.coedge_to_face
      (fs.flatMap (fun f => ((env.wires_from_face f).flatten).map
        (fun t => (env.oriented_edge_index t, env.face_index f)))) =
      some st'.coedge_to_face := by
  intro fs
  induction fs with
  | nil => intro st st' h; cases h; exact ⟨rfl, rfl, rfl, rfl⟩
  | cons f fs ih =>
    intro st st' h
    unfold facesPhase at h
    try dsimp only at h
    cases hs : facePassWires env (env.face_index f) st (env.wires_from_face f) with
    | none => rw [hs] at h; cases h
    | some st1 =>
      rw [hs] at h
      obtain ⟨hnx, hmate, hc2e, hc2f⟩ := facePassWires_trace hs
      obtain ⟨ihnx, ihmate, ihc2e, ihc2f⟩ := ih h
      refine ⟨by rw [ihnx, hnx], by rw [ihmate, hmate], by rw [ihc2e, hc2e], ?_⟩
      rw [List.flatMap_cons, applyW_append hc2f]
      exact ihc2f

theorem build_trace {env : BRepEnv} {arrs : IncidenceArrays}
    (h : build_incidence_arrays env = some arrs) :
    applyW (List.replicate env.coedge_count env.coedge_count) (nextWrites env) =
      some arrs.next ∧
    applyW (List.replicate env.coedge_count env.coedge_count)
      (mateWrites env (allCoedges env)) = some arrs.mate ∧
    applyW (List.replicate env.coedge_count env.coedge_count)
      (c2eWrites env (allCoedges env)) = some arrs.coedge_to_edge ∧
    applyW (List.replicate env.coedge_count env.coedge_count) (c2fWrites env) =
      some arrs.coedge_to_face ∧
    (∀ w ∈ env.wires, w ≠ []) ∧
    (∀ t ∈ allCoedges env, env.edge_index t = env.edge_index (env.reversed_edge t)) ∧
    (∀ x ∈ arrs.next, x < env.coedge_count) ∧
    (∀ x ∈ arrs.mate, x < env.coedge_count) ∧
    (∀ x ∈ arrs.coedge_to_face, x < env.coedge_count) ∧
    (∀ x ∈ arrs.coedge_to_edge, x < env.coedge_count) := by
  unfold build_incidence_arrays at h
  try dsimp only at h
  cases hw : wiresPhase env
      ⟨List.replicate env.coedge_count env.coedge_count,
       List.replicate env.coedge_count env.coedge_count,
       List.replicate env.coedge_count env.coedge_count,
       List.replicate env.coedge_count env.coedge_count⟩ env.wires with
  | none => rw [hw] at h; cases h
  | some st1 =>
    rw [hw] at h
    try dsimp only at h
    cases hf : facesPhase env st1 env.faces with
    | none => rw [hf] at h; cases h
    | some st2 =>
      rw [hf] at h
      try dsimp only at h
      split at h
      · cases h
        rename_i hguard
        obtain ⟨wcf, wmate, wc2e, wnext, wne, wassert⟩ := wiresPhase_trace hw
        obtain ⟨fnx, fmate, fc2e, fcf⟩ := facesPhase_trace hf
        have hg := hguard
        simp only [Bool.and_eq_true, List.all_eq_true, decide_eq_true_eq] at hg
        obtain ⟨⟨⟨g1, g2⟩, g3⟩, g4⟩ := hg
        refine ⟨?_, ?_, ?_, ?_, wne, ?_, ?_, ?_, ?_, ?_⟩
        · show applyW _ (nextWrites env) = some st2.next_
          rw [fnx]
          exact wnext
        · show applyW _ (mateWrites env (allCoedges env)) = some st2.mate
          rw [fmate]
          exact wmate
        · show applyW _ (c2eWrites env (allCoedges env)) = some st2.coedge_to_edge
          rw [fc2e]
          exact wc2e
        · show applyW _ (c2fWrites env) = some st2.coedge_to_face
          rw [wcf] at fcf
          exact fcf
        · exact wassert
        · intro x hx
          exact g1 x hx
        · intro x hx
          exact g2 x hx
        · intro x hx
          exact g3 x hx
        · intro x hx
          exact g4 x hx
      · cases h

theorem build_lengths {env : BRepEnv} {arrs : IncidenceArrays}
    (h : build_incidence_arrays env = some arrs) :
    arrs.next.length = env.coedge_count ∧ arrs.mate.length = env.coedge_count ∧
    arrs.coedge_to_face.length = env.coedge_count ∧
    arrs.coedge_to_edge.length = env.coedge_count := by
  obtain ⟨wnext, wmate, wc2e, wcf, -⟩ := build_trace h
  refine ⟨?_, ?_, ?_, ?_⟩
  · rw [applyW_length wnext, List.length_replicate]
  · rw [applyW_length wmate, List.length_replicate]
  · rw [applyW_length wcf, List.length_replicate]
  · rw [applyW_length wc2e, List.length_replicate]

theorem replicate_getD {C j : Nat} (hj : j < C) :
    (List.replicate C C).getD j 0 = C := by
  rw [List.getD_eq_getElem?_getD, List.getElem?_replicate]
  simp [hj]

theorem c2fWrites_mem {env : BRepEnv} {p : Nat × Nat} (hp : p ∈ c2fWrites env) :
    ∃ f ∈ env.faces, p.2 = env.face_index f := by
  unfold c2fWrites at hp
  obtain ⟨f, hf, hmem⟩ := List.mem_flatMap.mp hp
  obtain ⟨t, -, hpt⟩ := List.mem_map.mp hmem
  exact ⟨f, hf, by rw [← hpt]⟩

theorem c2eWrites_mem {env : BRepEnv} {ts : List Nat} {p : Nat × Nat}
    (hp : p ∈ c2eWrites env ts) :
    ∃ t ∈ ts, p.2 = env.edge_index t ∧
      (p.1 = env.oriented_edge_index t ∨ p.1 = mateOf env t) := by
  unfold c2eWrites at hp
  obtain ⟨t, ht, hmem⟩ := List.mem_flatMap.mp hp
  rcases List.mem_cons.mp hmem with rfl | hmem'
  · exact ⟨t, ht, rfl, Or.inl rfl⟩
  · rcases List.mem_cons.mp hmem' with rfl | hmem''
    · exact ⟨t, ht, rfl, Or.inr rfl⟩
    · cases hmem''

theorem mateWrites_mem {env : BRepEnv} {ts : List Nat} {p : Nat × Nat}
    (hp : p ∈ mateWrites env ts) :
    ∃ t ∈ ts, p = (env.oriented_edge_index t, mateOf env t) := by
  unfold mateWrites at hp
  obtain ⟨t, ht, hpt⟩ := List.mem_map.mp hp
  exact ⟨t, ht, hpt.symm⟩

/-- C4 — Builder validation gate: when `build_incidence_arrays` returns
normally, no sentinel (the value `coedge_count`) survives in any of the four
arrays, and each entry is a valid id of its kind: `next` and `mate` entries
are strictly below the coedge count, `coedge_to_face` entries strictly below
the face count, `coedge_to_edge` entries strictly below the edge count.  The
per-kind bounds assume the external entity-indexing service assigns dense
per-kind ids (`face_index` below the face count, `edge_index` below the edge
count); an uninitialized (sentinel) entry instead makes the construction fail,
since the validation pass would reject it. -/
theorem incidence_arrays_valid (env : BRepEnv) (arrs : IncidenceArrays)
    (face_count edge_count : Nat)
    (h : build_incidence_arrays env = some arrs)
    (hface : ∀ f ∈ env.faces, env.face_index f < face_count)
    (hedge : ∀ t ∈ allCoedges env, env.edge_index t < edge_count) :
    (∀ x ∈ arrs.next, x < env.coedge_count) ∧
    (∀ x ∈ arrs.mate, x < env.coedge_count) ∧
    (∀ x ∈ arrs.coedge_to_face, x < env.coedge_count) ∧
    (∀ x ∈ arrs.coedge_to_edge, x < env.coedge_count) ∧
    (∀ x ∈ arrs.coedge_to_face, x < face_count) ∧
    (∀ x ∈ arrs.coedge_to_edge, x < edge_count) := by
  obtain ⟨wnext, wmate, wc2e, wcf, -, -, g1, g2, g3, g4⟩ := build_trace h
  obtain ⟨-, -, hlen3, hlen4⟩ := build_lengths h
  refine ⟨g1, g2, g3, g4, ?_, ?_⟩
  · intro x hx
    obtain ⟨j, hj, hxe⟩ := List.mem_iff_getElem.mp hx
    have hgetD : arrs.coedge_to_face.getD j 0 = x := by
      rw [List.getD_eq_getElem?_getD, List.getElem?_eq_getElem hj, hxe]
      rfl
    rcases applyW_getD_mem_or wcf j with hinit | hmem
    · rw [hgetD, replicate_getD (hlen3 ▸ hj)] at hinit
      exact absurd (g3 x hx) (by rw [hinit]; exact lt_irrefl _)
    · rw [hgetD] at hmem
      obtain ⟨f, hf, hval⟩ := c2fWrites_mem hmem
      have hx2 : x = env.face_index f := hval
      rw [hx2]
      exact hface f hf
  · intro x hx
    obtain ⟨j, hj, hxe⟩ := List.mem_iff_getElem.mp hx
    have hgetD : arrs.coedge_to_edge.getD j 0 = x := by
      rw [List.getD_eq_getElem?_getD, List.getElem?_eq_getElem hj, hxe]
      rfl
    rcases applyW_getD_mem_or wc2e j with hinit | hmem
    · rw [hgetD, replicate_getD (hlen4 ▸ hj)] at hinit
      exact absurd (g4 x hx) (by rw [hinit]; exact lt_irrefl _)
    · rw [hgetD] at hmem
      obtain ⟨t, ht, hval, -⟩ := c2eWrites_mem hmem
      have hx2 : x = env.edge_index t := hval
      rw [hx2]
      exact hedge t ht

/-- The coedge tokens whose ids can be written by the wire phase: every
traversed token together with every existing reverse of a traversed token.
Id-injectivity over this list expresses that the external entity-indexing
service assigns each oriented edge a unique id. -/
def extT (env : BRepEnv) : List Nat :=
  allCoedges env ++
    ((allCoedges env).filter
      (fun t => env.oriented_edge_exists (env.reversed_edge t))).map env.reversed_edge

theorem mem_extT_left {env : BRepEnv} {t : Nat} (ht : t ∈ allCoedges env) : t ∈ extT env :=
  List.mem_append.mpr (Or.inl ht)

theorem mem_extT_right {env : BRepEnv} {t : Nat} (ht : t ∈ allCoedges env)
    (hex : env.oriented_edge_exists (env.reversed_edge t) = true) :
    env.reversed_edge t ∈ extT env :=
  List.mem_append.mpr (Or.inr (List.mem_map.mpr
    ⟨t, List.mem_filter.mpr ⟨ht, hex⟩, rfl⟩))

theorem getD_mem {l : List Nat} {j : Nat} (hj : j < l.length) : l.getD j 0 ∈ l := by
  rw [List.getD_eq_getElem?_getD, List.getElem?_eq_getElem hj]
  exact List.getElem_mem hj

/-- Every coedge id below the coedge count is the id of some traversed token:
otherwise its `mate` entry would keep the sentinel and the validation pass
would have failed. -/
theorem exists_token_of_id {env : BRepEnv} {arrs : IncidenceArrays}
    (h : build_incidence_arrays env = some arrs) {c : Nat} (hc : c < env.coedge_count) :
    ∃ t ∈ allCoedges env, env.oriented_edge_index t = c := by
  obtain ⟨-, wmate, -, -, -, -, -, g2, -⟩ := build_trace h
  by_contra hno
  push_neg at hno
  have hne : ∀ p ∈ mateWrites env (allCoedges env), p.1 ≠ c := by
    intro p hp
    obtain ⟨t, ht, rfl⟩ := mateWrites_mem hp
    exact hno t ht
  have hinit := applyW_getD_of_forall_ne wmate hne
  rw [replicate_getD hc] at hinit
  have hlen : arrs.mate.length = env.coedge_count := (build_lengths h).2.1
  have hmem : arrs.mate.getD c 0 ∈ arrs.mate := getD_mem (by rw [hlen]; exact hc)
  have := g2 _ hmem
  rw [hinit] at this
  exact absurd this (lt_irrefl _)

/-- The final `mate` entry of a traversed token's id is the
`mating_coedge_index` computed at that token's step (assuming id uniqueness
over the traversed tokens). -/
theorem mate_final {env : BRepEnv} {arrs : IncidenceArrays}
    (h : build_incidence_arrays env = some arrs)
    (hinj : ∀ a ∈ allCoedges env, ∀ b ∈ allCoedges env,
      env.oriented_edge_index a = env.oriented_edge_index b → a = b)
    {t : Nat} (ht : t ∈ allCoedges env) :
    arrs.mate.getD (env.oriented_edge_index t) 0 = mateOf env t := by
  obtain ⟨-, wmate, -, -, -, -, -, -, -⟩ := build_trace h
  refine applyW_getD_last wmate ?_ ?_
  · exact ⟨(env.oriented_edge_index t, mateOf env t),
      List.mem_map.mpr ⟨t, ht, rfl⟩, rfl⟩
  · intro p hp hp1
    obtain ⟨u, hu, rfl⟩ := mateWrites_mem hp
    have : u = t := hinj u hu t ht hp1
    rw [this]

/-- Every `coedge_to_edge` write hitting the id of a token of `extT` writes
that token's edge id (id uniqueness over `extT` plus the per-step shared-edge
assertion). -/
theorem c2e_write_value {env : BRepEnv}
    (hinj : ∀ a ∈ extT env, ∀ b ∈ extT env,
      env.oriented_edge_index a = env.oriented_edge_index b → a = b)
    (hass : ∀ u ∈ allCoedges env, env.edge_index u = env.edge_index (env.reversed_edge u))
    {s : Nat} (hs : s ∈ extT env) :
    ∀ p ∈ c2eWrites env (allCoedges env), p.1 = env.oriented_edge_index s →
      p.2 = env.edge_index s := by
  intro p hp hp1
  obtain ⟨u, hu, hval, hidx⟩ := c2eWrites_mem hp
  rcases hidx with hoi | hmate
  · have : u = s := hinj u (mem_extT_left hu) s hs (by rw [← hoi, hp1])
    rw [hval, this]
  · unfold mateOf at hmate
    by_cases hex : env.oriented_edge_exists (env.reversed_edge u) = true
    · rw [if_pos hex] at hmate
      have : env.reversed_edge u = s :=
        hinj (env.reversed_edge u) (mem_extT_right hu hex) s hs (by rw [← hmate, hp1])
      rw [hval, hass u hu, this]
    · rw [if_neg hex] at hmate
      have : u = s := hinj u (mem_extT_left hu) s hs (by rw [← hmate, hp1])
      rw [hval, this]

/-- The final `coedge_to_edge` entries at a traversed token's id and at its
mate's id both equal that token's edge id. -/
theorem c2e_final {env : BRepEnv} {arrs : IncidenceArrays}
    (h : build_incidence_arrays env = some arrs)
    (hinj : ∀ a ∈ extT env, ∀ b ∈ extT env,
      env.oriented_edge_index a = env.oriented_edge_index b → a = b)
    {t : Nat} (ht : t ∈ allCoedges env) :
    arrs.coedge_to_edge.getD (env.oriented_edge_index t) 0 = env.edge_index t ∧
    arrs.coedge_to_edge.getD (mateOf env t) 0 = env.edge_index t := by
  obtain ⟨-, -, wc2e, -, -, hass, -⟩ := build_trace h
  have hwrite1 : (env.oriented_edge_index t, env.edge_index t) ∈
      c2eWrites env (allCoedges env) :=
    List.mem_flatMap.mpr ⟨t, ht, by simp⟩
  have hwrite2 : (mateOf env t, env.edge_index t) ∈ c2eWrites env (allCoedges env) :=
    List.mem_flatMap.mpr ⟨t, ht, by simp⟩
  constructor
  · exact applyW_getD_last wc2e ⟨_, hwrite1, rfl⟩
      (c2e_write_value hinj hass (mem_extT_left ht))
  · by_cases hex : env.oriented_edge_exists (env.reversed_edge t) = true
    · have hmateOf : mateOf env t = env.oriented_edge_index (env.reversed_edge t) := by
        unfold mateOf
        rw [if_pos hex]
      have hval := c2e_write_value hinj hass (mem_extT_right ht hex)
      have hthis : arrs.coedge_to_edge.getD (mateOf env t) 0 =
          env.edge_index (env.reversed_edge t) := by
        refine applyW_getD_last wc2e ⟨_, hwrite2, rfl⟩ ?_
        intro p hp hp1
        exact hval p hp (by rw [hp1, hmateOf])
      rw [hthis, ← hass t ht]
    · have hmateOf : mateOf env t = env.oriented_edge_index t := by
        unfold mateOf
        rw [if_neg hex]
      rw [hmateOf]
      exact applyW_getD_last wc2e ⟨_, hwrite1, rfl⟩
        (c2e_write_value hinj hass (mem_extT_left ht))

/-- C6 — Mate/edge agreement invariant: whenever `build_incidence_arrays`
succeeds, every coedge and its mate share the same underlying edge:
`coedge_to_edge[mate[c]] == coedge_to_edge[c]` for every coedge id `c`.
The hypothesis states that the external entity-indexing service assigns
distinct ids to distinct oriented edges (over all traversed coedges and
their existing reverses). -/
theorem coedge_and_mate_share_edge (env : BRepEnv) (arrs : IncidenceArrays)
    (h : build_incidence_arrays env = some arrs)
    (hinj : ∀ a ∈ extT env, ∀ b ∈ extT env,
      env.oriented_edge_index a = env.oriented_edge_index b → a = b) :
    ∀ c < env.coedge_count,
      arrs.coedge_to_edge.getD (arrs.mate.getD c 0) 0 =
        arrs.coedge_to_edge.getD c 0 := by
  intro c hc
  obtain ⟨t, ht, hoi⟩ := exists_token_of_id h hc
  have hinjocc : ∀ a ∈ allCoedges env, ∀ b ∈ allCoedges env,
      env.oriented_edge_index a = env.oriented_edge_index b → a = b :=
    fun a ha b hb => hinj a (mem_extT_left ha) b (mem_extT_left hb)
  have hmate : arrs.mate.getD c 0 = mateOf env t := by
    rw [← hoi]
    exact mate_final h hinjocc ht
  obtain ⟨h1, h2⟩ := c2e_final h hinj ht
  rw [hmate, h2, ← hoi, h1]

/-- C7 — Mating is an involution: whenever `build_incidence_arrays` succeeds,
`mate[mate[c]] == c` for every coedge id `c` with `mate[c] != c`; self-mated
coedges are fixed points.  Hypotheses: the entity-indexing service assigns
unique ids (over traversed coedges and their reverses), geometric reversal is
an involution on the traversed coedges, and every traversed coedge is
registered in the oriented-edge map. -/
theorem mate_is_involution (env : BRepEnv) (arrs : IncidenceArrays)
    (h : build_incidence_arrays env = some arrs)
    (hinj : ∀ a ∈ extT env, ∀ b ∈ extT env,
      env.oriented_edge_index a = env.oriented_edge_index b → a = b)
    (hinv : ∀ t ∈ allCoedges env, env.reversed_edge (env.reversed_edge t) = t)
    (hex : ∀ t ∈ allCoedges env, env.oriented_edge_exists t = true) :
    ∀ c < env.coedge_count, arrs.mate.getD c 0 ≠ c →
      arrs.mate.getD (arrs.mate.getD c 0) 0 = c := by
  intro c hc hne
  obtain ⟨t, ht, hoi⟩ := exists_token_of_id h hc
  have hinjocc : ∀ a ∈ allCoedges env, ∀ b ∈ allCoedges env,
      env.oriented_edge_index a = env.oriented_edge_index b → a = b :=
    fun a ha b hb => hinj a (mem_extT_left ha) b (mem_extT_left hb)
  have hmate : arrs.mate.getD c 0 = mateOf env t := by
    rw [← hoi]
    exact mate_final h hinjocc ht
  have hexrev : env.oriented_edge_exists (env.reversed_edge t) = true := by
    by_contra hfalse
    have : mateOf env t = env.oriented_edge_index t := by
      unfold mateOf
      rw [if_neg hfalse]
    rw [hmate, this, hoi] at hne
    exact hne rfl
  have hmateOf : mateOf env t = env.oriented_edge_index (env.reversed_edge t) := by
    unfold mateOf
    rw [if_pos hexrev]
  have hmlt : arrs.mate.getD c 0 < env.coedge_count := by
    have hlen : arrs.mate.length = env.coedge_count := (build_lengths h).2.1
    obtain ⟨-, -, -, -, -, -, -, g2, -⟩ := build_trace h
    exact g2 _ (getD_mem (by rw [hlen]; exact hc))
  obtain ⟨u, hu, hoiu⟩ := exists_token_of_id h hmlt
  have hurev : u = env.reversed_edge t := by
    refine hinj u (mem_extT_left hu) (env.reversed_edge t) (mem_extT_right ht hexrev) ?_
    rw [hoiu, hmate, hmateOf]
  have hrevocc : env.reversed_edge t ∈ allCoedges env := hurev ▸ hu
  have hfinal : arrs.mate.getD (env.oriented_edge_index (env.reversed_edge t)) 0 =
      mateOf env (env.reversed_edge t) :=
    mate_final h hinjocc hrevocc
  have hmrev : mateOf env (env.reversed_edge t) = env.oriented_edge_index t := by
    unfold mateOf
    rw [hinv t ht, if_pos (hex t ht)]
  rw [hmate, hmateOf, hfinal, hmrev, hoi]

/-- C9 — Degenerate-pole self-mating: when a traversed coedge's geometric
reverse does not exist as a distinct coedge (e.g. at a sphere pole) and
`build_incidence_arrays` completes, that coedge is mated to itself — the
self-mate is accepted, not treated as a topology inconsistency. -/
theorem degenerate_pole_self_mates (env : BRepEnv) (arrs : IncidenceArrays)
    (h : build_incidence_arrays env = some arrs)
    (hinj : ∀ a ∈ allCoedges env, ∀ b ∈ allCoedges env,
      env.oriented_edge_index a = env.oriented_edge_index b → a = b) :
    ∀ t ∈ allCoedges env, env.oriented_edge_exists (env.reversed_edge t) = false →
      arrs.mate.getD (env.oriented_edge_index t) 0 = env.oriented_edge_index t := by
  intro t ht hex
  rw [mate_final h hinj ht]
  unfold mateOf
  rw [hex]
  simp

theorem mod_succ_mod (a k : Nat) : (a % k + 1) % k = (a + 1) % k := by
  conv_rhs => rw [Nat.add_mod]
  conv_lhs => rw [Nat.add_mod, Nat.mod_mod_of_dvd a dvd_rfl]

theorem nextWritesWire_fst_mem {env : BRepEnv} {w : List Nat} {p : Nat × Nat}
    (hp : p ∈ nextWritesWire env w) : p.1 ∈ w.map env.oriented_edge_index := by
  unfold nextWritesWire at hp
  obtain ⟨h1, -⟩ := List.of_mem_zip (by exact hp)
  exact h1

theorem nextWritesWire_value {env : BRepEnv} {w : List Nat} {p : Nat × Nat}
    (hnd : (w.map env.oriented_edge_index).Nodup)
    (hp : p ∈ nextWritesWire env w) {m : Nat}
    (hm : m < (w.map env.oriented_edge_index).length)
    (h1 : p.1 = (w.map env.oriented_edge_index).getD m 0) :
    p.2 = (w.map env.oriented_edge_index).getD
      ((m + 1) % (w.map env.oriented_edge_index).length) 0 := by
  set idxs := w.map env.oriented_edge_index with hidxs
  unfold nextWritesWire at hp
  rw [← hidxs] at hp
  obtain ⟨i, hi, hpe⟩ := List.mem_iff_getElem.mp hp
  have hziplen : (idxs.zip (idxs.rotate 1)).length = idxs.length := by
    rw [List.length_zip, List.length_rotate, Nat.min_self]
  have hik : i < idxs.length := by rwa [hziplen] at hi
  have hir : i < (idxs.rotate 1).length := by
    rw [List.length_rotate]
    exact hik
  have hkpos : 0 < idxs.length := Nat.zero_lt_of_lt hik
  have hsucc : (i + 1) % idxs.length < idxs.length := Nat.mod_lt _ hkpos
  have hgz : (idxs.zip (idxs.rotate 1))[i] = (idxs[i], (idxs.rotate 1)[i]) :=
    List.getElem_zip
  rw [hgz] at hpe
  have hp1 : p.1 = idxs[i] := by rw [← hpe]
  have hp2 : p.2 = (idxs.rotate 1)[i] := by rw [← hpe]
  have hrot : (idxs.rotate 1)[i] = idxs[(i + 1) % idxs.length] := by
    have := List.get_rotate idxs 1 ⟨i, hir⟩
    simpa using this
  have him : i = m := by
    have heq : idxs[i] = idxs[m] := by
      rw [← hp1, h1, List.getD_eq_getElem idxs 0 hm]
    exact (List.Nodup.getElem_inj_iff hnd).mp heq
  subst him
  rw [hp2, hrot, List.getD_eq_getElem idxs 0 (Nat.mod_lt _ hkpos)]

theorem nextWrites_value {env : BRepEnv} : ∀ {ws : List (List Nat)}
    (_ : (ws.map (fun w => w.map env.oriented_edge_index)).flatten.Nodup)
    {p : Nat × Nat} (_ : p ∈ ws.flatMap (nextWritesWire env))
    {w : List Nat} (_ : w ∈ ws) {m : Nat}
    (hm : m < (w.map env.oriented_edge_index).length),
    p.1 = (w.map env.oriented_edge_index).getD m 0 →
    p.2 = (w.map env.oriented_edge_index).getD
      ((m + 1) % (w.map env.oriented_edge_index).length) 0 := by
  intro ws
  induction ws with
  | nil =>
    intro _ p hp
    cases hp
  | cons w0 rest ih =>
    intro hnd p hp w hw m hm h1
    rw [List.map_cons, List.flatten_cons, List.nodup_append] at hnd
    obtain ⟨hnd0, hndrest, hdisj⟩ := hnd
    rw [List.flatMap_cons] at hp
    have hmem1 : (w.map env.oriented_edge_index).getD m 0 ∈
        w.map env.oriented_edge_index := getD_mem hm
    rcases List.mem_append.mp hp with hp0 | hprest
    · rcases List.mem_cons.mp hw with rfl | hwrest
      · exact nextWritesWire_value hnd0 hp0 hm h1
      · exfalso
        have hp1mem : p.1 ∈ w0.map env.oriented_edge_index := nextWritesWire_fst_mem hp0
        have hp1mem' : p.1 ∈ (rest.map (fun w => w.map env.oriented_edge_index)).flatten := by
          rw [h1]
          exact List.mem_flatten.mpr ⟨w.map env.oriented_edge_index,
            List.mem_map.mpr ⟨w, hwrest, rfl⟩, hmem1⟩
        exact hdisj hp1mem hp1mem'
    · rcases List.mem_cons.mp hw with rfl | hwrest
      · exfalso
        obtain ⟨w', hw', hpw'⟩ := List.mem_flatMap.mp hprest
        have hp1mem : p.1 ∈ (rest.map (fun w => w.map env.oriented_edge_index)).flatten :=
          List.mem_flatten.mpr ⟨w'.map env.oriented_edge_index,
            List.mem_map.mpr ⟨w', hw', rfl⟩, nextWritesWire_fst_mem hpw'⟩
        have hp1mem' : p.1 ∈ w.map env.oriented_edge_index := by
          rw [h1]
          exact hmem1
        exact hdisj hp1mem' hp1mem
      · exact ih hndrest hprest hwrest hm h1

/-- The final `next` entry at the id of a wire's `m`-th coedge is the id of
the wire's cyclically next coedge. -/
theorem next_entry {env : BRepEnv} {arrs : IncidenceArrays}
    (h : build_incidence_arrays env = some arrs)
    (hnd : ((allCoedges env).map env.oriented_edge_index).Nodup)
    {w : List Nat} (hw : w ∈ env.wires) {m : Nat}
    (hm : m < (w.map env.oriented_edge_index).length) :
    arrs.next.getD ((w.map env.oriented_edge_index).getD m 0) 0 =
      (w.map env.oriented_edge_index).getD
        ((m + 1) % (w.map env.oriented_edge_index).length) 0 := by
  obtain ⟨wnext, -⟩ := build_trace h
  have hndf : ((env.wires.map (fun w => w.map env.oriented_edge_index)).flatten).Nodup := by
    have : (allCoedges env).map env.oriented_edge_index =
        (env.wires.map (fun w => w.map env.oriented_edge_index)).flatten := by
      unfold allCoedges
      exact List.map_flatten _ _
    rwa [this] at hnd
  set idxs := w.map env.oriented_edge_index with hidxs
  have hk : idxs.length ≠ 0 := by
    intro h0
    rw [h0] at hm
    cases hm
  have hm1 : (m + 1) % idxs.length < idxs.length := Nat.mod_lt _ (Nat.pos_of_ne_zero hk)
  refine applyW_getD_last wnext ?_ ?_
  · refine ⟨(idxs.getD m 0, idxs.getD ((m + 1) % idxs.length) 0), ?_, rfl⟩
    unfold nextWrites
    refine List.mem_flatMap.mpr ⟨w, hw, ?_⟩
    unfold nextWritesWire
    rw [← hidxs]
    have hmm : m < (idxs.zip (idxs.rotate 1)).length := by
      rw [List.length_zip, List.length_rotate, Nat.min_self]
      exact hm
    have hmr : m < (idxs.rotate 1).length := by
      rw [List.length_rotate]
      exact hm
    have hval : (idxs.zip (idxs.rotate 1))[m] =
        (idxs.getD m 0, idxs.getD ((m + 1) % idxs.length) 0) := by
      rw [List.getElem_zip]
      have hrot : (idxs.rotate 1)[m] = idxs[(m + 1) % idxs.length] := by
        have := List.get_rotate idxs 1 ⟨m, hmr⟩
        simpa using this
      rw [List.getD_eq_getElem idxs 0 hm, List.getD_eq_getElem idxs 0 hm1]
      rw [hrot]
    rw [← hval]
    exact List.getElem_mem hmm
  · intro p hp hp1
    exact nextWrites_value hndf hp hw hm hp1

/-- Iterating the final `next` map from a wire's `m`-th coedge walks the wire
cyclically. -/
theorem next_iterate {env : BRepEnv} {arrs : IncidenceArrays}
    (h : build_incidence_arrays env = some arrs)
    (hnd : ((allCoedges env).map env.oriented_edge_index).Nodup)
    {w : List Nat} (hw : w ∈ env.wires) : ∀ (n : Nat) {m : Nat},
    m < (w.map env.oriented_edge_index).length →
    (fun i => arrs.next.getD i 0)^[n] ((w.map env.oriented_edge_index).getD m 0) =
      (w.map env.oriented_edge_index).getD
        ((m + n) % (w.map env.oriented_edge_index).length) 0 := by
  intro n
  induction n with
  | zero =>
    intro m hm
    rw [Function.iterate_zero_apply, Nat.add_zero, Nat.mod_eq_of_lt hm]
  | succ n ihn =>
    intro m hm
    have hk : 0 < (w.map env.oriented_edge_index).length := Nat.zero_lt_of_lt hm
    rw [Function.iterate_succ_apply', ihn hm]
    have hmn : (m + n) % (w.map env.oriented_edge_index).length <
        (w.map env.oriented_edge_index).length := Nat.mod_lt _ hk
    rw [next_entry h hnd hw hmn, mod_succ_mod]
    rfl

/-- C8 — Wire cycle structure of `next`: whenever `build_incidence_arrays`
succeeds and the entity-indexing service assigns distinct ids to the
traversed coedges, then for each wire, iterating the returned `next` map from
any coedge of the wire returns to the start after exactly as many steps as
the wire has coedges, visiting exactly the wire's coedges (each once, none
outside it): the visit sequence is the wire's id list rotated to start at the
chosen coedge, hence a permutation of the wire's (duplicate-free) id list,
and no proper intermediate step returns to the start. -/
theorem next_restricted_to_wire_is_cycle (env : BRepEnv) (arrs : IncidenceArrays)
    (h : build_incidence_arrays env = some arrs)
    (hnd : ((allCoedges env).map env.oriented_edge_index).Nodup) :
    ∀ w ∈ env.wires, ∀ m, m < (w.map env.oriented_edge_index).length →
      (List.range (w.map env.oriented_edge_index).length).map
          (fun n => (fun i => arrs.next.getD i 0)^[n]
            ((w.map env.oriented_edge_index).getD m 0)) =
        (w.map env.oriented_edge_index).rotate m ∧
      (fun i => arrs.next.getD i 0)^[(w.map env.oriented_edge_index).length]
          ((w.map env.oriented_edge_index).getD m 0) =
        (w.map env.oriented_edge_index).getD m 0 ∧
      ((List.range (w.map env.oriented_edge_index).length).map
          (fun n => (fun i => arrs.next.getD i 0)^[n]
            ((w.map env.oriented_edge_index).getD m 0))).Perm
        (w.map env.oriented_edge_index) ∧
      (w.map env.oriented_edge_index).Nodup ∧
      (∀ j, 0 < j → j < (w.map env.oriented_edge_index).length →
        (fun i => arrs.next.getD i 0)^[j]
            ((w.map env.oriented_edge_index).getD m 0) ≠
          (w.map env.oriented_edge_index).getD m 0) := by
  intro w hw m hm
  set idxs := w.map env.oriented_edge_index with hidxs
  have hk : 0 < idxs.length := Nat.zero_lt_of_lt hm
  have hndw : idxs.Nodup := by
    have hndf : ((env.wires.map (fun w => w.map env.oriented_edge_index)).flatten).Nodup := by
      have heq : (allCoedges env).map env.oriented_edge_index =
          (env.wires.map (fun w => w.map env.oriented_edge_index)).flatten := by
        unfold allCoedges
        exact List.map_flatten _ _
      rwa [heq] at hnd
    exact (List.nodup_flatten.mp hndf).1 idxs
      (List.mem_map.mpr ⟨w, hw, rfl⟩)
  have hiter := next_iterate h hnd hw
  have hmap : (List.range idxs.length).map
      (fun n => (fun i => arrs.next.getD i 0)^[n] (idxs.getD m 0)) =
      idxs.rotate m := by
    refine List.ext_getElem ?_ ?_
    · rw [List.length_map, List.length_range, List.length_rotate]
    · intro n h1 h2
      have hn : n < idxs.length := by
        rwa [List.length_map, List.length_range] at h1
      rw [List.getElem_map, List.getElem_range]
      rw [hiter n hm]
      have hrot := List.get_rotate idxs m ⟨n, h2⟩
      have hmn : (m + n) % idxs.length < idxs.length := Nat.mod_lt _ hk
      rw [List.getD_eq_getElem idxs 0 hmn]
      rw [show (idxs.rotate m)[n] = (idxs.rotate m).get ⟨n, h2⟩ from rfl, hrot]
      congr 1
      rw [Nat.add_comm]
  refine ⟨hmap, ?_, ?_, hndw, ?_⟩
  · rw [hiter idxs.length hm, Nat.add_mod_right, Nat.mod_eq_of_lt hm]
  · rw [hmap]
    exact List.rotate_perm idxs m
  · intro j hj0 hjk hcontra
    rw [hiter j hm] at hcontra
    have hmj : (m + j) % idxs.length < idxs.length := Nat.mod_lt _ hk
    rw [List.getD_eq_getElem idxs 0 hmj, List.getD_eq_getElem idxs 0 hm] at hcontra
    have heqidx : (m + j) % idxs.length = m :=
      (List.Nodup.getElem_inj_iff hndw).mp hcontra
    by_cases hlt : m + j < idxs.length
    · rw [Nat.mod_eq_of_lt hlt] at heqidx
      omega
    · push_neg at hlt
      rw [Nat.mod_eq_sub_mod hlt, Nat.mod_eq_of_lt (by omega)] at heqidx
      omega

/-!
### Closed form of the `simple_edge` kernel

When every numpy indexing performed by the kernel is in range, `simple_edge`
succeeds and its edge list has an explicit closed form (`kernelEdges`): the
`_f`, `_mf`, `_e`, `_i`, `_m` blocks concatenated in source order.
-/

/-- The edge list emitted by a successful `simple_edge` run: coedge/face pairs
(both directions), coedge/mate-face pairs (both directions), coedge/edge
pairs (both directions), coedge self-loops, then one-way coedge-to-mate
edges.  Ids live in the flat node space: faces unchanged, edges offset by
`F`, coedges offset by `F + E`. -/
def kernelEdges (F E C : Nat) (coedge_to_mate coedge_to_face coedge_to_edge : List Nat) :
    List (Nat × Nat) :=
  (coedge_to_face.enum.flatMap fun p => [(F + E + p.1, p.2), (p.2, F + E + p.1)]) ++
  (coedge_to_face.enum.flatMap fun p =>
    [(F + E + p.1, coedge_to_face.getD (coedge_to_mate.getD p.1 0) 0),
     (coedge_to_face.getD (coedge_to_mate.getD p.1 0) 0, F + E + p.1)]) ++
  (coedge_to_edge.enum.flatMap fun p => [(F + E + p.1, F + p.2), (F + p.2, F + E + p.1)]) ++
  ((List.range C).map fun i => (F + E + i, F + E + i)) ++
  (coedge_to_mate.enum.map fun p => (F + E + p.1, F + E + p.2))

theorem _fAux_ok {C F E : Nat} : ∀ (l : List Nat) (ix : Nat) (acc : List (Nat × Nat)),
    (∀ p ∈ List.enumFrom ix l, p.1 < C ∧ p.2 < F) →
    _fAux (coedge_to_node F E C) (face_to_node F) ix l acc =
      some (acc ++ (List.enumFrom ix l).flatMap
        (fun p => [(F + E + p.1, p.2), (p.2, F + E + p.1)])) := by
  intro l
  induction l with
  | nil =>
    intro ix acc _
    simp [_fAux]
  | cons a l ih =>
    intro ix acc hb
    obtain ⟨hix, ha⟩ := hb (ix, a) (by rw [List.enumFrom_cons]; exact List.mem_cons_self _ _)
    have hcn : coedge_to_node F E C ix = some (F + E + ix) := by
      unfold coedge_to_node
      rw [if_pos hix]
    have hfn : face_to_node F a = some a := by
      unfold face_to_node
      rw [if_pos ha]
    unfold _fAux
    rw [hcn, hfn]
    dsimp only
    rw [ih (ix + 1) _ (fun p hp => hb p (by rw [List.enumFrom_cons]; exact List.mem_cons_of_mem _ hp))]
    rw [List.enumFrom_cons, List.flatMap_cons]
    unfold _add_undirect_edge
    simp [List.append_assoc]

theorem _mfAux_ok {C F E : Nat} (coedge_to_mate coedge_to_face : List Nat) :
    ∀ (l : List Nat) (ix : Nat) (acc : List (Nat × Nat)),
    (∀ p ∈ List.enumFrom ix l, p.1 < C ∧ p.1 < coedge_to_mate.length ∧
      coedge_to_mate.getD p.1 0 < coedge_to_face.length ∧
      coedge_to_face.getD (coedge_to_mate.getD p.1 0) 0 < F) →
    _mfAux coedge_to_mate coedge_to_face (coedge_to_node F E C) (face_to_node F) ix l acc =
      some (acc ++ (List.enumFrom ix l).flatMap
        (fun p => [(F + E + p.1, coedge_to_face.getD (coedge_to_mate.getD p.1 0) 0),
                   (coedge_to_face.getD (coedge_to_mate.getD p.1 0) 0, F + E + p.1)])) := by
  intro l
  induction l with
  | nil =>
    intro ix acc _
    simp [_mfAux]
  | cons a l ih =>
    intro ix acc hb
    obtain ⟨hix, hmlen, hmi, hfi⟩ :=
      hb (ix, a) (by rw [List.enumFrom_cons]; exact List.mem_cons_self _ _)
    have hcn : coedge_to_node F E C ix = some (F + E + ix) := by
      unfold coedge_to_node
      rw [if_pos hix]
    have hget1 : coedge_to_mate.get? ix = some (coedge_to_mate.getD ix 0) := by
      rw [List.get?_eq_getElem?, List.getElem?_eq_getElem hmlen,
        List.getD_eq_getElem _ 0 hmlen]
    have hget2 : coedge_to_face.get? (coedge_to_mate.getD ix 0) =
        some (coedge_to_face.getD (coedge_to_mate.getD ix 0) 0) := by
      rw [List.get?_eq_getElem?, List.getElem?_eq_getElem hmi,
        List.getD_eq_getElem _ 0 hmi]
    have hfn : face_to_node F (coedge_to_face.getD (coedge_to_mate.getD ix 0) 0) =
        some (coedge_to_face.getD (coedge_to_mate.getD ix 0) 0) := by
      unfold face_to_node
      rw [if_pos hfi]
    unfold _mfAux
    rw [hcn, hget1]
    dsimp only
    rw [hget2]
    dsimp only
    rw [hfn]
    dsimp only
    rw [ih (ix + 1) _ (fun p hp => hb p (by rw [List.enumFrom_cons]; exact List.mem_cons_of_mem _ hp))]
    rw [List.enumFrom_cons, List.flatMap_cons]
    unfold _add_undirect_edge
    simp [List.append_assoc]

theorem _eAux_ok {C F E : Nat} : ∀ (l : List Nat) (ix : Nat) (acc : List (Nat × Nat)),
    (∀ p ∈ List.enumFrom ix l, p.1 < C ∧ p.2 < E) →
    _eAux (coedge_to_node F E C) (edge_to_node F E) ix l acc =
      some (acc ++ (List.enumFrom ix l).flatMap
        (fun p => [(F + E + p.1, F + p.2), (F + p.2, F + E + p.1)])) := by
  intro l
  induction l with
  | nil =>
    intro ix acc _
    simp [_eAux]
  | cons a l ih =>
    intro ix acc hb
    obtain ⟨hix, ha⟩ := hb (ix, a) (by rw [List.enumFrom_cons]; exact List.mem_cons_self _ _)
    have hcn : coedge_to_node F E C ix = some (F + E + ix) := by
      unfold coedge_to_node
      rw [if_pos hix]
    have hen : edge_to_node F E a = some (F + a) := by
      unfold edge_to_node
      rw [if_pos ha]
    unfold _eAux
    rw [hcn, hen]
    dsimp only
    rw [ih (ix + 1) _ (fun p hp => hb p (by rw [List.enumFrom_cons]; exact List.mem_cons_of_mem _ hp))]
    rw [List.enumFrom_cons, List.flatMap_cons]
    unfold _add_undirect_edge
    simp [List.append_assoc]

theorem _i_ok {C F E : Nat} : ∀ (l : List Nat) (acc : List (Nat × Nat)),
    (∀ x ∈ l, x < C) →
    _i l (coedge_to_node F E C) acc =
      some (acc ++ l.map (fun i => (F + E + i, F + E + i))) := by
  intro l
  induction l with
  | nil =>
    intro acc _
    simp [_i]
  | cons a l ih =>
    intro acc hb
    have ha : a < C := hb a (List.mem_cons_self _ _)
    have hcn : coedge_to_node F E C a = some (F + E + a) := by
      unfold coedge_to_node
      rw [if_pos ha]
    unfold _i
    rw [hcn]
    dsimp only
    rw [ih _ (fun x hx => hb x (List.mem_cons_of_mem _ hx))]
    simp [List.append_assoc]

theorem _mAux_ok {C F E : Nat} : ∀ (l : List Nat) (ix : Nat) (acc : List (Nat × Nat)),
    (∀ p ∈ List.enumFrom ix l, p.1 < C ∧ p.2 < C) →
    _mAux (coedge_to_node F E C) ix l acc =
      some (acc ++ (List.enumFrom ix l).map
        (fun p => (F + E + p.1, F + E + p.2))) := by
  intro l
  induction l with
  | nil =>
    intro ix acc _
    simp [_mAux]
  | cons a l ih =>
    intro ix acc hb
    obtain ⟨hix, ha⟩ := hb (ix, a) (by rw [List.enumFrom_cons]; exact List.mem_cons_self _ _)
    have hcn1 : coedge_to_node F E C ix = some (F + E + ix) := by
      unfold coedge_to_node
      rw [if_pos hix]
    have hcn2 : coedge_to_node F E C a = some (F + E + a) := by
      unfold coedge_to_node
      rw [if_pos ha]
    unfold _mAux
    rw [hcn1, hcn2]
    dsimp only
    rw [ih (ix + 1) _ (fun p hp => hb p (by rw [List.enumFrom_cons]; exact List.mem_cons_of_mem _ hp))]
    rw [List.enumFrom_cons, List.map_cons]
    simp [List.append_assoc]

/-- Closed form of `simple_edge`: when every indexing is in range the kernel
returns the graph built from `kernelEdges`. -/
theorem simple_edge_eq {α : Type} (ff ef cf : List (List α)) (mate c2f c2e : List Nat)
    (h1 : ∀ p ∈ c2f.enum, p.1 < cf.length ∧ p.2 < ff.length ∧ p.1 < mate.length ∧
      mate.getD p.1 0 < c2f.length ∧ c2f.getD (mate.getD p.1 0) 0 < ff.length)
    (h2 : ∀ p ∈ c2e.enum, p.1 < cf.length ∧ p.2 < ef.length)
    (h3 : ∀ p ∈ mate.enum, p.1 < cf.length ∧ p.2 < cf.length) :
    simple_edge ff ef cf mate c2f c2e =
      some (_create_graph ff ef cf
        (kernelEdges ff.length ef.length cf.length mate c2f c2e)) := by
  unfold simple_edge
  dsimp only
  rw [List.enum_eq_enumFrom] at h1 h2 h3
  unfold _f
  rw [_fAux_ok c2f 0 [] (fun p hp => ⟨(h1 p hp).1, (h1 p hp).2.1⟩)]
  dsimp only
  unfold _mf
  rw [_mfAux_ok mate c2f c2f 0 _
    (fun p hp => ⟨(h1 p hp).1, (h1 p hp).2.2.1, (h1 p hp).2.2.2.1, (h1 p hp).2.2.2.2⟩)]
  dsimp only
  unfold _e
  rw [_eAux_ok c2e 0 _ (fun p hp => ⟨(h2 p hp).1, (h2 p hp).2⟩)]
  dsimp only
  rw [_i_ok (List.range cf.length) _ (fun x hx => List.mem_range.mp hx)]
  dsimp only
  unfold _m
  rw [_mAux_ok mate 0 _ (fun p hp => ⟨(h3 p hp).1, (h3 p hp).2⟩)]
  dsimp only
  unfold kernelEdges
  rw [List.enum_eq_enumFrom, List.enum_eq_enumFrom, List.enum_eq_enumFrom]
  simp [List.append_assoc, List.nil_append]

theorem enum_mem_spec {l : List Nat} {p : Nat × Nat} (hp : p ∈ l.enum) :
    p.1 < l.length ∧ p.2 = l.getD p.1 0 := by
  rw [List.enum_eq_enumFrom] at hp
  obtain ⟨i, hi, he⟩ := List.mem_iff_getElem.mp hp
  have hlen : i < l.length := by rwa [List.enumFrom_length] at hi
  rw [List.getElem_enumFrom] at he
  cases he
  constructor
  · simpa using hlen
  · rw [List.getD_eq_getElem l 0 (by simpa using hlen)]
    simp

theorem enum_mem_of_lt {l : List Nat} {c : Nat} (hc : c < l.length) :
    (c, l.getD c 0) ∈ l.enum := by
  rw [List.enum_eq_enumFrom]
  have hlen : c < (List.enumFrom 0 l).length := by rwa [List.enumFrom_length]
  have h2 : (List.enumFrom 0 l)[c] = (c, l.getD c 0) := by
    rw [List.getElem_enumFrom, List.getD_eq_getElem l 0 hc]
    simp
  rw [← h2]
  exact List.getElem_mem hlen

theorem zip_map_fst_snd : ∀ (l : List (Nat × Nat)),
    (l.map Prod.fst).zip (l.map Prod.snd) = l := by
  intro l
  induction l with
  | nil => rfl
  | cons p l ih => simp [ih]

theorem flatMap_pair_length {β : Type} (f g : β → Nat × Nat) :
    ∀ (l : List β), (l.flatMap (fun p => [f p, g p])).length = 2 * l.length := by
  intro l
  induction l with
  | nil => rfl
  | cons a l ih =>
    rw [List.flatMap_cons, List.length_append, ih]
    simp
    omega

theorem enum_map_offset (F E : Nat) (mate : List Nat) :
    mate.enum.map (fun p => (F + E + p.1, F + E + p.2)) =
      (List.range mate.length).map (fun i => (F + E + i, F + E + mate.getD i 0)) := by
  refine List.ext_getElem ?_ ?_
  · rw [List.length_map, List.length_map, List.enum_length, List.length_range]
  · intro n h1 h2
    have hn : n < mate.length := by
      rwa [List.length_map, List.enum_length] at h1
    rw [List.getElem_map, List.getElem_map, List.getElem_range]
    have hne : n < mate.enum.length := by
      rw [List.enum_length]
      exact hn
    have he : mate.enum[n] = (n, mate.getD n 0) := by
      simp only [List.enum_eq_enumFrom]
      rw [List.getElem_enumFrom, List.getD_eq_getElem mate 0 hn]
      simp
    rw [he]

theorem kernelEdges_length (F E C : Nat) (mate c2f c2e : List Nat)
    (hlm : mate.length = C) (hlf : c2f.length = C) (hle : c2e.length = C) :
    (kernelEdges F E C mate c2f c2e).length = 8 * C := by
  unfold kernelEdges
  rw [List.length_append, List.length_append, List.length_append, List.length_append]
  rw [flatMap_pair_length, flatMap_pair_length, flatMap_pair_length]
  rw [List.length_map, List.length_map, List.enum_length, List.enum_length,
    List.enum_length, List.length_range]
  rw [hlm, hlf, hle]
  omega

/-- The in-range hypotheses of `simple_edge_eq`, derived from equal array
lengths and per-array bounds. -/
theorem simple_edge_eq_of_lengths {α : Type} (ff ef cf : List (List α))
    (mate c2f c2e : List Nat)
    (hlm : mate.length = cf.length) (hlf : c2f.length = cf.length)
    (hle : c2e.length = cf.length)
    (bm : ∀ x ∈ mate, x < cf.length) (bf : ∀ x ∈ c2f, x < ff.length)
    (be : ∀ x ∈ c2e, x < ef.length) :
    simple_edge ff ef cf mate c2f c2e =
      some (_create_graph ff ef cf
        (kernelEdges ff.length ef.length cf.length mate c2f c2e)) := by
  refine simple_edge_eq ff ef cf mate c2f c2e ?_ ?_ ?_
  · intro p hp
    obtain ⟨h1, h2⟩ := enum_mem_spec hp
    have h1m : p.1 < mate.length := by rw [hlm, ← hlf]; exact h1
    have hmate : mate.getD p.1 0 < c2f.length := by
      rw [hlf]
      exact bm _ (getD_mem h1m)
    refine ⟨by rw [← hlf]; exact h1, ?_, h1m, hmate, ?_⟩
    · rw [h2]
      exact bf _ (getD_mem h1)
    · exact bf _ (getD_mem hmate)
  · intro p hp
    obtain ⟨h1, h2⟩ := enum_mem_spec hp
    refine ⟨by rw [← hle]; exact h1, ?_⟩
    rw [h2]
    exact be _ (getD_mem h1)
  · intro p hp
    obtain ⟨h1, h2⟩ := enum_mem_spec hp
    refine ⟨by rw [← hlm]; exact h1, ?_⟩
    rw [h2]
    exact bm _ (getD_mem h1)

/-- C5 — Kernel wiring pattern: for every coedge `c`, a successful
`simple_edge` run emits an undirected pair (both directions) between `c` and
its owning face `coedge_to_face[c]`, an undirected pair between `c` and the
face owning `coedge_to_mate[c]`, an undirected pair between `c` and its
underlying edge `coedge_to_edge[c]`, a directed self-loop `(c, c)`, and — as
the final block of the edge list — exactly one one-way directed edge from
each coedge to its mate, not mirrored within that block (the mirror arises
only from the mate coedge's own visit).  All ids are in the flat node space:
faces unchanged, edges offset by `F`, coedges offset by `F + E`. -/
theorem simple_edge_wiring_pattern {α : Type} (ff ef cf : List (List α))
    (mate c2f c2e : List Nat) (g : Graph α)
    (hlm : mate.length = cf.length) (hlf : c2f.length = cf.length)
    (hle : c2e.length = cf.length)
    (bm : ∀ x ∈ mate, x < cf.length) (bf : ∀ x ∈ c2f, x < ff.length)
    (be : ∀ x ∈ c2e, x < ef.length)
    (hg : simple_edge ff ef cf mate c2f c2e = some g)
    (c : Nat) (hc : c < cf.length) :
    (ff.length + ef.length + c, c2f.getD c 0) ∈ g.senders.zip g.receivers ∧
    (c2f.getD c 0, ff.length + ef.length + c) ∈ g.senders.zip g.receivers ∧
    (ff.length + ef.length + c, c2f.getD (mate.getD c 0) 0) ∈
      g.senders.zip g.receivers ∧
    (c2f.getD (mate.getD c 0) 0, ff.length + ef.length + c) ∈
      g.senders.zip g.receivers ∧
    (ff.length + ef.length + c, ff.length + c2e.getD c 0) ∈
      g.senders.zip g.receivers ∧
    (ff.length + c2e.getD c 0, ff.length + ef.length + c) ∈
      g.senders.zip g.receivers ∧
    (ff.length + ef.length + c, ff.length + ef.length + c) ∈
      g.senders.zip g.receivers ∧
    (g.senders.zip g.receivers).drop (7 * cf.length) =
      (List.range cf.length).map
        (fun i => (ff.length + ef.length + i,
          ff.length + ef.length + mate.getD i 0)) := by
  rw [simple_edge_eq_of_lengths ff ef cf mate c2f c2e hlm hlf hle bm bf be] at hg
  cases hg
  have hzip : ((kernelEdges ff.length ef.length cf.length mate c2f c2e).map Prod.fst).zip
      ((kernelEdges ff.length ef.length cf.length mate c2f c2e).map Prod.snd) =
      kernelEdges ff.length ef.length cf.length mate c2f c2e :=
    zip_map_fst_snd _
  unfold _create_graph
  dsimp only
  rw [hzip]
  have hcf : c < c2f.length := by rw [hlf]; exact hc
  have hce : c < c2e.length := by rw [hle]; exact hc
  have hcm : c < mate.length := by rw [hlm]; exact hc
  have hmemf := enum_mem_of_lt hcf
  have hmeme := enum_mem_of_lt hce
  unfold kernelEdges
  refine ⟨?_, ?_, ?_, ?_, ?_, ?_, ?_, ?_⟩
  · exact List.mem_append_left _ (List.mem_append_left _ (List.mem_append_left _
      (List.mem_append_left _ (List.mem_flatMap.mpr ⟨_, hmemf, by simp⟩))))
  · exact List.mem_append_left _ (List.mem_append_left _ (List.mem_append_left _
      (List.mem_append_left _ (List.mem_flatMap.mpr ⟨_, hmemf, by simp⟩))))
  · exact List.mem_append_left _ (List.mem_append_left _ (List.mem_append_left _
      (List.mem_append_right _ (List.mem_flatMap.mpr ⟨_, hmemf, by simp⟩))))
  · exact List.mem_append_left _ (List.mem_append_left _ (List.mem_append_left _
      (List.mem_append_right _ (List.mem_flatMap.mpr ⟨_, hmemf, by simp⟩))))
  · exact List.mem_append_left _ (List.mem_append_left _ (List.mem_append_right _
      (List.mem_flatMap.mpr ⟨_, hmeme, by simp⟩)))
  · exact List.mem_append_left _ (List.mem_append_left _ (List.mem_append_right _
      (List.mem_flatMap.mpr ⟨_, hmeme, by simp⟩)))
  · exact List.mem_append_left _ (List.mem_append_right _
      (List.mem_map.mpr ⟨c, List.mem_range.mpr hc, rfl⟩))
  · rw [List.drop_left']
    · rw [enum_map_offset, hlm]
    · rw [List.length_append, List.length_append, List.length_append]
      rw [flatMap_pair_length, flatMap_pair_length, flatMap_pair_length]
      simp only [List.enum_length, List.length_range, List.length_map]
      rw [hlf, hle]
      omega

/-- C10 (amended) — Exact edge count and emission order: when each incidence
array has exactly `C` entries (`C` the coedge feature row count) and
`simple_edge` succeeds, `senders` and `receivers` each have length `8 * C`
and are the first/second projections of the fixed `kernelEdges` list — the
`_f`, `_mf`, `_e`, `_i`, `_m` blocks in source order — so identical inputs
always yield identical arrays. -/
theorem simple_edge_edge_count_and_order {α : Type} (ff ef cf : List (List α))
    (mate c2f c2e : List Nat) (g : Graph α)
    (hlm : mate.length = cf.length) (hlf : c2f.length = cf.length)
    (hle : c2e.length = cf.length)
    (bm : ∀ x ∈ mate, x < cf.length) (bf : ∀ x ∈ c2f, x < ff.length)
    (be : ∀ x ∈ c2e, x < ef.length)
    (hg : simple_edge ff ef cf mate c2f c2e = some g) :
    g.senders.length = 8 * cf.length ∧ g.receivers.length = 8 * cf.length ∧
    g.senders = (kernelEdges ff.length ef.length cf.length mate c2f c2e).map Prod.fst ∧
    g.receivers = (kernelEdges ff.length ef.length cf.length mate c2f c2e).map Prod.snd ∧
    g.face_features = ff ∧ g.edge_features = ef ∧ g.coedge_features = cf := by
  rw [simple_edge_eq_of_lengths ff ef cf mate c2f c2e hlm hlf hle bm bf be] at hg
  cases hg
  have hlen := kernelEdges_length ff.length ef.length cf.length mate c2f c2e hlm hlf hle
  unfold _create_graph
  dsimp only
  refine ⟨?_, ?_, rfl, rfl, rfl, rfl, rfl⟩
  · rw [List.length_map, hlen]
  · rw [List.length_map, hlen]

/-- C10 counterexample — with one coedge feature row (`C = 1`) but empty
incidence arrays, `simple_edge` succeeds and emits one edge (the `_i`
self-loop), not `8 * C = 8`: the edge count depends on the incidence array
lengths, which the kernel never checks against `C`. -/
theorem simple_edge_count_not_eight_C :
    (simple_edge [[(0 : Int)]] [[0]] [[0]] [] [] []).map (fun g => g.senders.length) =
      some 1 ∧ (1 : Nat) ≠ 8 * 1 := by
  constructor
  · rfl
  · decide

/-- C3 counterexample — `simple_edge` performs no emptiness validation: on
three empty feature matrices (and empty incidence arrays) it succeeds and
returns the empty graph instead of failing. -/
theorem simple_edge_accepts_empty_matrices :
    simple_edge ([] : List (List Int)) [] [] [] [] [] =
      some ⟨[], [], [], [], []⟩ ∧
    simple_edge [[(0 : Int)]] [[0]] [[0]] [] [] [] =
      some ⟨[[0]], [[0]], [[0]], [2], [2]⟩ := by
  constructor
  · rfl
  · rfl

/-- C3 (amended) — `simple_edge` performs no emptiness or shape validation:
it succeeds and returns a graph whenever every incidence-array entry it
dereferences is in range, including when feature matrices are empty or when
the incidence arrays are shorter than the coedge feature row count; it fails
only through out-of-range indexing. -/
theorem simple_edge_no_shape_validation {α : Type} (ff ef cf : List (List α))
    (mate c2f c2e : List Nat)
    (hf1 : c2f.length ≤ cf.length) (hf2 : ∀ x ∈ c2f, x < ff.length)
    (hm1 : c2f.length ≤ mate.length)
    (hm2 : ∀ i ∈ List.range c2f.length, mate.getD i 0 < c2f.length)
    (he1 : c2e.length ≤ cf.length) (he2 : ∀ x ∈ c2e, x < ef.length)
    (hmm1 : mate.length ≤ cf.length) (hmm2 : ∀ x ∈ mate, x < cf.length) :
    ∃ g, simple_edge ff ef cf mate c2f c2e = some g := by
  refine ⟨_, simple_edge_eq ff ef cf mate c2f c2e ?_ ?_ ?_⟩
  · intro p hp
    obtain ⟨h1, h2⟩ := enum_mem_spec hp
    have hmi : mate.getD p.1 0 < c2f.length := hm2 p.1 (List.mem_range.mpr h1)
    refine ⟨Nat.lt_of_lt_of_le h1 hf1, ?_, Nat.lt_of_lt_of_le h1 hm1, hmi, ?_⟩
    · rw [h2]
      exact hf2 _ (getD_mem h1)
    · exact hf2 _ (getD_mem hmi)
  · intro p hp
    obtain ⟨h1, h2⟩ := enum_mem_spec hp
    refine ⟨Nat.lt_of_lt_of_le h1 he1, ?_⟩
    rw [h2]
    exact he2 _ (getD_mem h1)
  · intro p hp
    obtain ⟨h1, h2⟩ := enum_mem_spec hp
    refine ⟨Nat.lt_of_lt_of_le h1 hmm1, ?_⟩
    rw [h2]
    exact hmm2 _ (getD_mem h1)

/-- C1 — Pipeline composition is broken by a field-name mismatch: the
`IncidenceArrays` NamedTuple returned by `build_incidence_arrays` exposes the
attribute `mate`, but `simple_edge` dereferences
`incidence_arrays.coedge_to_mate` (`configurations.py` lines 65 and 71), so
every call of the assembler on the builder's output raises `AttributeError`
and no graph is produced. -/
theorem pipeline_composition_attribute_error {α : Type}
    (env : BRepEnv) (arrs : IncidenceArrays) (ff ef cf : List (List α))
    (_ : build_incidence_arrays env = some arrs) :
    simple_edge_full ff ef cf arrs = none := rfl

/-- A concrete body: two faces sharing one undirected edge through two
mutually-mated coedges — the scenario of `tests/configurations_test.py`.
Coedge tokens are `0` and `1`, each in its own single-coedge wire; the
entity-indexing functions are the identity-style lookups of a dense mapper. -/
def env2 : BRepEnv where
  wires := [[0], [1]]
  faces := [0, 1]
  wires_from_face := fun f => if f = 0 then [[0]] else [[1]]
  reversed_edge := fun t => if t = 0 then 1 else 0
  oriented_edge_exists := fun _ => true
  oriented_edge_index := fun t => t
  edge_index := fun _ => 0
  face_index := fun f => f
  coedge_count := 2

/-- The incidence arrays `build_incidence_arrays` produces on `env2`. -/
def arrs2 : IncidenceArrays := ⟨[0, 1], [1, 0], [0, 1], [0, 0]⟩

/-- A concrete body with one face bounded by a single three-coedge wire whose
coedges all self-mate (each underlying edge distinct). -/
def env3 : BRepEnv where
  wires := [[0, 1, 2]]
  faces := [0]
  wires_from_face := fun _ => [[0, 1, 2]]
  reversed_edge := fun t => t
  oriented_edge_exists := fun _ => true
  oriented_edge_index := fun t => t
  edge_index := fun t => t
  face_index := fun f => f
  coedge_count := 3

/-- The incidence arrays `build_incidence_arrays` produces on `env3`. -/
def arrs3 : IncidenceArrays := ⟨[1, 2, 0], [0, 1, 2], [0, 0, 0], [0, 1, 2]⟩

/-- A concrete body with a degenerate-pole coedge: its geometric reverse
(token `5`) does not exist as a distinct coedge in the oriented-edge map. -/
def envPole : BRepEnv where
  wires := [[0]]
  faces := [0]
  wires_from_face := fun _ => [[0]]
  reversed_edge := fun _ => 5
  oriented_edge_exists := fun t => t < 1
  oriented_edge_index := fun t => t
  edge_index := fun _ => 0
  face_index := fun f => f
  coedge_count := 1

/-- The incidence arrays `build_incidence_arrays` produces on `envPole`. -/
def arrsPole : IncidenceArrays := ⟨[0], [0], [0], [0]⟩

theorem pipeline_composition_attribute_error_witness :
    build_incidence_arrays env2 = some arrs2 ∧
    simple_edge_full [[(0 : Int)], [0]] [[0]] [[0], [0]] arrs2 = none :=
  ⟨by decide,
    pipeline_composition_attribute_error env2 arrs2 [[(0 : Int)], [0]] [[0]] [[0], [0]]
      (by decide)⟩

/-- C2 — Assembler output evaluated on the two-face scenario: `simple_edge`
returns the mapping with the three per-kind feature matrices unchanged (2, 1
and 2 rows) plus `senders`/`receivers`; no key of the returned mapping holds
a combined `F+E+C`-row node feature table (the repository's own test expects
`graph['nodes']` of shape `(5, 3)` and `graph['n_node']`, which the code
does not produce).  The block-diagonal `F+E+C`-row table is built by the
separate function `features_from_body`, not by the assembler. -/
theorem assembler_returns_separate_feature_tables :
    simple_edge [[(1 : Int)], [2]] [[3]] [[4], [5]] [1, 0] [0, 1] [0, 0] =
      some ⟨[[1], [2]], [[3]], [[4], [5]],
        [3, 0, 4, 1, 3, 1, 4, 0, 3, 2, 4, 2, 3, 4, 3, 4],
        [0, 3, 1, 4, 1, 3, 0, 4, 2, 3, 2, 4, 3, 4, 4, 3]⟩ ∧
    graph_keys = ["face_features", "edge_features", "coedge_features",
      "senders", "receivers"] ∧
    "nodes" ∉ graph_keys ∧ "n_node" ∉ graph_keys ∧ "n_edge" ∉ graph_keys ∧
    ([[(1 : Int)], [2]].length = 2 ∧ [[(3 : Int)]].length = 1 ∧
      [[(4 : Int)], [5]].length = 2 ∧ 2 + 1 + 2 = 5 ∧ (2 : Nat) ≠ 5 ∧ (1 : Nat) ≠ 5) ∧
    features_from_body [[(1 : Int)], [2]] [[3]] [[4], [5]] =
      [[1, 0, 0], [2, 0, 0], [0, 3, 0], [0, 0, 4], [0, 0, 5]] := by
  refine ⟨rfl, rfl, ?_, ?_, ?_, ⟨rfl, rfl, rfl, rfl, ?_, ?_⟩, rfl⟩
  · decide
  · decide
  · decide
  · decide
  · decide

theorem incidence_arrays_valid_witness :
    build_incidence_arrays env2 = some arrs2 ∧
    (∀ x ∈ arrs2.coedge_to_face, x < 2) ∧ (∀ x ∈ arrs2.coedge_to_edge, x < 1) := by
  have h := incidence_arrays_valid env2 arrs2 2 1 (by decide) (by decide) (by decide)
  exact ⟨by decide, h.2.2.2.2.1, h.2.2.2.2.2⟩

theorem coedge_and_mate_share_edge_witness :
    build_incidence_arrays env2 = some arrs2 ∧
    arrs2.coedge_to_edge.getD (arrs2.mate.getD 0 0) 0 = arrs2.coedge_to_edge.getD 0 0 := by
  have h := coedge_and_mate_share_edge env2 arrs2 (by decide) (by decide) 0 (by decide)
  exact ⟨by decide, h⟩

theorem mate_is_involution_witness :
    build_incidence_arrays env2 = some arrs2 ∧ arrs2.mate.getD 0 0 ≠ 0 ∧
    arrs2.mate.getD (arrs2.mate.getD 0 0) 0 = 0 := by
  have h := mate_is_involution env2 arrs2 (by decide) (by decide) (by decide)
    (by decide) 0 (by decide) (by decide)
  exact ⟨by decide, by decide, h⟩

theorem next_restricted_to_wire_is_cycle_witness :
    build_incidence_arrays env3 = some arrs3 ∧
    (List.range 3).map (fun n => (fun i => arrs3.next.getD i 0)^[n] 0) = [0, 1, 2] ∧
    (fun i => arrs3.next.getD i 0)^[3] 0 = 0 := by
  have h := next_restricted_to_wire_is_cycle env3 arrs3 (by decide) (by decide)
    [0, 1, 2] (by decide) 0 (by decide)
  exact ⟨by decide, h.1, h.2.1⟩

theorem degenerate_pole_self_mates_witness :
    build_incidence_arrays envPole = some arrsPole ∧ arrsPole.mate.getD 0 0 = 0 := by
  have h := degenerate_pole_self_mates envPole arrsPole (by decide) (by decide)
    0 (by decide) (by decide)
  exact ⟨by decide, h⟩

theorem simple_edge_wiring_pattern_witness :
    ((3, 0) ∈ ([3, 0, 4, 1, 3, 1, 4, 0, 3, 2, 4, 2, 3, 4, 3, 4] : List Nat).zip
      ([0, 3, 1, 4, 1, 3, 0, 4, 2, 3, 2, 4, 3, 4, 4, 3] : List Nat)) ∧
    ((3, 3) ∈ ([3, 0, 4, 1, 3, 1, 4, 0, 3, 2, 4, 2, 3, 4, 3, 4] : List Nat).zip
      ([0, 3, 1, 4, 1, 3, 0, 4, 2, 3, 2, 4, 3, 4, 4, 3] : List Nat)) ∧
    (([3, 0, 4, 1, 3, 1, 4, 0, 3, 2, 4, 2, 3, 4, 3, 4] : List Nat).zip
      ([0, 3, 1, 4, 1, 3, 0, 4, 2, 3, 2, 4, 3, 4, 4, 3] : List Nat)).drop 14 =
      [(3, 4), (4, 3)] := by
  have h := simple_edge_wiring_pattern [[(1 : Int)], [2]] [[3]] [[4], [5]]
    [1, 0] [0, 1] [0, 0]
    ⟨[[1], [2]], [[3]], [[4], [5]],
      [3, 0, 4, 1, 3, 1, 4, 0, 3, 2, 4, 2, 3, 4, 3, 4],
      [0, 3, 1, 4, 1, 3, 0, 4, 2, 3, 2, 4, 3, 4, 4, 3]⟩
    (by decide) (by decide) (by decide) (by decide) (by decide) (by decide)
    rfl 0 (by decide)
  exact ⟨h.1, h.2.2.2.2.2.2.1, h.2.2.2.2.2.2.2⟩

theorem simple_edge_edge_count_and_order_witness :
    ([3, 0, 4, 1, 3, 1, 4, 0, 3, 2, 4, 2, 3, 4, 3, 4] : List Nat).length = 8 * 2 ∧
    ([0, 3, 1, 4, 1, 3, 0, 4, 2, 3, 2, 4, 3, 4, 4, 3] : List Nat).length = 8 * 2 := by
  have h := simple_edge_edge_count_and_order [[(1 : Int)], [2]] [[3]] [[4], [5]]
    [1, 0] [0, 1] [0, 0]
    ⟨[[1], [2]], [[3]], [[4], [5]],
      [3, 0, 4, 1, 3, 1, 4, 0, 3, 2, 4, 2, 3, 4, 3, 4],
      [0, 3, 1, 4, 1, 3, 0, 4, 2, 3, 2, 4, 3, 4, 4, 3]⟩
    (by decide) (by decide) (by decide) (by decide) (by decide) (by decide) rfl
  exact ⟨h.1, h.2.1⟩

theorem simple_edge_no_shape_validation_witness :
    (simple_edge [[(0 : Int)]] [[0]] [[0]] [] [] []).isSome = true := by
  obtain ⟨g, hgg⟩ := simple_edge_no_shape_validation [[(0 : Int)]] [[0]] [[0]] [] [] []
    (by decide) (by decide) (by decide) (by decide) (by decide) (by decide)
    (by decide) (by decide)
  rw [hgg]
  rfl

end Brep2Graph
